import Mathlib

/-!
Verification of the Blunderbuss chess engine core against its specification.

This file shallowly embeds the relevant Rust sources (bitboard.rs, position.rs,
movegen.rs, make_move.rs, zobrist.rs, magic.rs, search.rs, engine.rs) as Lean
definitions and proves or refutes the frozen claims about them.

Conventions of the embedding:
- a Square is a Fin 64 with index 0 = a8 and 63 = h1, exactly as in the source;
- a 64-bit Bitboard is a Nat kept below 2^64; wrapping shifts and complements
  take an explicit mod 2^64 / xor with the 64-bit mask;
- arrays are Lean lists or functions; looping code becomes structural
  recursion (with explicit fuel where the source loop is unbounded);
- the evaluator module (eval.rs) is not part of the sources; the functions it
  provides (evaluate, Piece::value) are passed as parameters, as the spec
  treats the evaluator as an external pure function;
- the process-wide random Zobrist table is passed as a parameter
  (a function from 0..760 to code values), mirroring ZobristCodes.
-/

set_option maxRecDepth 100000
set_option exponentiation.threshold 200000
set_option maxHeartbeats 20000000

/-- Mask of a full 64-bit word. -/
def U64_MASK : Nat := 2 ^ 64 - 1

/-- Wrapping 64-bit left shift, as on Rust u64. -/
def shl64 (b : Nat) (n : Nat) : Nat := (b <<< n) % 2 ^ 64

/-- Bitwise complement on 64-bit words (Rust Not for Bitboard). -/
def bbNot (b : Nat) : Nat := b ^^^ U64_MASK

/-- Bitboard::from: the singleton bitboard of a square. -/
def bbFrom (sq : Fin 64) : Nat := 1 <<< sq.val

/-- Bitboard::is_set. -/
def bbIsSet (b : Nat) (sq : Fin 64) : Bool := b.testBit sq.val

/-- Bitboard::set. -/
def bbSet (b : Nat) (sq : Fin 64) : Nat := b ||| bbFrom sq

/-- Bitboard::reset. -/
def bbReset (b : Nat) (sq : Fin 64) : Nat := b &&& bbNot (bbFrom sq)

/-- Bitboard::intersects. -/
def bbIntersects (a b : Nat) : Bool := a &&& b != 0

/-- Bitboard::get_lsb: the lowest set square, if any (Square::from_u32 of
trailing_zeros, hence none on the empty board). -/
def get_lsb (b : Nat) : Option (Fin 64) :=
  (List.finRange 64).find? (fun i => b.testBit i.val)

/-- Iterating a Bitboard yields its set squares in ascending index order
(repeated get_lsb and reset); for words below 2^64 this is the filtered list
of squares. -/
def bbList (b : Nat) : List (Fin 64) :=
  (List.finRange 64).filter (fun i => b.testBit i.val)

/-- Bitboard::count_bits (u64::count_ones) for 64-bit words. -/
def count_bits (b : Nat) : Nat := (bbList b).length

/-- File mask constants from bitboard.rs. -/
def A_FILE : Nat := 0x0101010101010101
/-- File mask of the b-file. -/
def B_FILE : Nat := 0x0202020202020202
/-- File mask of the g-file. -/
def G_FILE : Nat := 0x4040404040404040
/-- File mask of the h-file. -/
def H_FILE : Nat := 0x8080808080808080

/-- Square::rank (0 = rank 8). -/
def rankOf (s : Fin 64) : Int := (s.val : Int) / 8

/-- Square::file (0 = file a). -/
def fileOf (s : Fin 64) : Int := (s.val : Int) % 8

/-- Square::add: offset a square index, none when leaving 0..63. -/
def sqAdd (s : Fin 64) (i : Int) : Option (Fin 64) :=
  let v : Int := (s.val : Int) + i
  if h : 0 ≤ v ∧ v < 64 then
    some ⟨v.toNat, by omega⟩
  else
    none

/-- Colour from position.rs. -/
inductive Colour where
  | white
  | black
deriving DecidableEq, Repr

/-- Not for Colour. -/
def Colour.flip : Colour → Colour
  | .white => .black
  | .black => .white

/-- Piece from position.rs: a kind tagged with its colour. -/
inductive Piece where
  | pawn (c : Colour)
  | knight (c : Colour)
  | bishop (c : Colour)
  | rook (c : Colour)
  | queen (c : Colour)
  | king (c : Colour)
deriving DecidableEq, Repr

/-- Colour of a piece. -/
def Piece.colour : Piece → Colour
  | .pawn c => c
  | .knight c => c
  | .bishop c => c
  | .rook c => c
  | .queen c => c
  | .king c => c

/-- From Piece for usize: the fixed 0..11 index. -/
def Piece.idx : Piece → Nat
  | .pawn .white => 0
  | .knight .white => 1
  | .bishop .white => 2
  | .rook .white => 3
  | .queen .white => 4
  | .king .white => 5
  | .pawn .black => 6
  | .knight .black => 7
  | .bishop .black => 8
  | .rook .black => 9
  | .queen .black => 10
  | .king .black => 11

/-- From usize for Piece (indices 0..11; out of range is unreachable in the
source and mapped to a white pawn here). -/
def pieceOfIdx : Nat → Piece
  | 0 => .pawn .white
  | 1 => .knight .white
  | 2 => .bishop .white
  | 3 => .rook .white
  | 4 => .queen .white
  | 5 => .king .white
  | 6 => .pawn .black
  | 7 => .knight .black
  | 8 => .bishop .black
  | 9 => .rook .black
  | 10 => .queen .black
  | _ => .king .black

/-- The twelve pieces in bitboard-array order 0..11. -/
def pieceOrder : List Piece :=
  [.pawn .white, .knight .white, .bishop .white, .rook .white, .queen .white,
   .king .white, .pawn .black, .knight .black, .bishop .black, .rook .black,
   .queen .black, .king .black]

/-- Piece::iter_colour: the six pieces of a colour in kind order. -/
def iter_colour (c : Colour) : List Piece :=
  [.pawn c, .knight c, .bishop c, .rook c, .queen c, .king c]

/-- CastlingFlags bit values (bitflags in position.rs). -/
def WK_FLAG : Nat := 1
/-- CastlingFlags::WQ. -/
def WQ_FLAG : Nat := 2
/-- CastlingFlags::BK. -/
def BK_FLAG : Nat := 4
/-- CastlingFlags::BQ. -/
def BQ_FLAG : Nat := 8

/-- CastlingFlags::contains for single flags. -/
def flagsContain (flags f : Nat) : Bool := flags &&& f == f

/-- CastlingFlags::remove. -/
def flagsRemove (flags f : Nat) : Nat := flags &&& bbNot f

/-- Position from position.rs. The twelve piece bitboards are a function from
Piece (the array indexed by From Piece for usize); the two occupancy
bitboards a function from Colour. The u8 fields are Nat kept below 256 by the
explicit mod in make_move. -/
structure Position where
  pieces : Piece → Nat
  occupancy : Colour → Nat
  turn : Colour
  castling : Nat
  en_passant : Option (Fin 64)
  halfmove : Nat
  ply : Nat
  hash : Nat
  last_irreversible : Nat

/-- Position::occupied. -/
def Position.occupied (p : Position) : Nat :=
  p.occupancy .white ||| p.occupancy .black

/-- Position::piece_on: the first piece bitboard (in 0..11 order) with the
square set. -/
def piece_on (p : Position) (sq : Fin 64) : Option Piece :=
  pieceOrder.find? (fun pc => bbIsSet (p.pieces pc) sq)

/-- King attack pattern from movegen.rs (king_attacks). -/
def king_attacks (sq : Fin 64) : Nat :=
  let king := bbFrom sq
  let a := 0 ||| (shl64 king 7 &&& bbNot H_FILE)
  let a := a ||| shl64 king 8
  let a := a ||| (shl64 king 9 &&& bbNot A_FILE)
  let a := a ||| (shl64 king 1 &&& bbNot A_FILE)
  let a := a ||| (king >>> 7 &&& bbNot A_FILE)
  let a := a ||| (king >>> 8)
  let a := a ||| (king >>> 9 &&& bbNot H_FILE)
  let a := a ||| (king >>> 1 &&& bbNot H_FILE)
  a

/-- Knight attack pattern from movegen.rs (knight_attacks). -/
def knight_attacks (sq : Fin 64) : Nat :=
  let knight := bbFrom sq
  let a := 0 ||| (shl64 knight 6 &&& bbNot H_FILE &&& bbNot G_FILE)
  let a := a ||| (shl64 knight 15 &&& bbNot H_FILE)
  let a := a ||| (shl64 knight 17 &&& bbNot A_FILE)
  let a := a ||| (shl64 knight 10 &&& bbNot A_FILE &&& bbNot B_FILE)
  let a := a ||| (knight >>> 6 &&& bbNot A_FILE &&& bbNot B_FILE)
  let a := a ||| (knight >>> 15 &&& bbNot A_FILE)
  let a := a ||| (knight >>> 17 &&& bbNot H_FILE)
  let a := a ||| (knight >>> 10 &&& bbNot H_FILE &&& bbNot G_FILE)
  a

/-- Pawn attack pattern from movegen.rs (pawn_attacks). -/
def pawn_attacks (sq : Fin 64) (side : Colour) : Nat :=
  let pawn := bbFrom sq
  match side with
  | .white => (pawn >>> 7 &&& bbNot A_FILE) ||| (pawn >>> 9 &&& bbNot H_FILE)
  | .black => (shl64 pawn 7 &&& bbNot H_FILE) ||| (shl64 pawn 9 &&& bbNot A_FILE)

/-- Pawn single-push target from movegen.rs (pawn_pushes). -/
def pawn_pushes (sq : Fin 64) (side : Colour) : Nat :=
  let direction : Int := match side with | .white => -8 | .black => 8
  match sqAdd sq direction with
  | some s => bbSet 0 s
  | none => 0

/-- Ray of a bishop direction: the squares visited by the while-let loop of
bishop_attacks, in order, ignoring blockers (the loop breaks when the rank
fails to change by sign of the direction, handling edge wraps). -/
def bishopRayGo (d : Int) (prev_rank : Int) (cur : Option (Fin 64)) :
    Nat → List (Fin 64)
  | 0 => []
  | fuel + 1 =>
    match cur with
    | none => []
    | some sq =>
      if rankOf sq - prev_rank ≠ Int.sign d then []
      else sq :: bishopRayGo d (rankOf sq) (sqAdd sq d) fuel

/-- Squares of one bishop ray from a square. -/
def bishopRay (s : Fin 64) (d : Int) : List (Fin 64) :=
  bishopRayGo d (rankOf s) (sqAdd s d) 8

/-- Ray of a rook direction: the squares visited by the while-let loop of
rook_attacks, in order, ignoring blockers (the loop breaks when neither rank
nor file matches the origin, handling edge wraps). -/
def rookRayGo (s : Fin 64) (d : Int) (cur : Option (Fin 64)) :
    Nat → List (Fin 64)
  | 0 => []
  | fuel + 1 =>
    match cur with
    | none => []
    | some sq =>
      if rankOf s ≠ rankOf sq ∧ fileOf s ≠ fileOf sq then []
      else sq :: rookRayGo s d (sqAdd sq d) fuel

/-- Squares of one rook ray from a square. -/
def rookRay (s : Fin 64) (d : Int) : List (Fin 64) :=
  rookRayGo s d (sqAdd s d) 8

/-- Walk a ray against blockers: every square of the ray is attacked up to and
including the first occupied one. -/
def walkRay (l : List (Fin 64)) (blockers : Nat) : Nat :=
  match l with
  | [] => 0
  | sq :: rest =>
    if blockers.testBit sq.val then bbFrom sq
    else bbFrom sq ||| walkRay rest blockers

/-- Bishop sliding attacks from movegen.rs / magic.rs (bishop_attacks). -/
def bishop_attacks (from_sq : Fin 64) (blockers : Nat) : Nat :=
  walkRay (bishopRay from_sq 9) blockers |||
  walkRay (bishopRay from_sq 7) blockers |||
  walkRay (bishopRay from_sq (-9)) blockers |||
  walkRay (bishopRay from_sq (-7)) blockers

/-- Rook sliding attacks from movegen.rs / magic.rs (rook_attacks). -/
def rook_attacks (from_sq : Fin 64) (blockers : Nat) : Nat :=
  walkRay (rookRay from_sq 1) blockers |||
  walkRay (rookRay from_sq (-1)) blockers |||
  walkRay (rookRay from_sq 8) blockers |||
  walkRay (rookRay from_sq (-8)) blockers

/-- MoveKind from movegen.rs. The Castling payload is the CastlingFlags word
(1, 2, 4 or 8 for the four generated variants). -/
inductive MoveKind where
  | quiet
  | capture (p : Piece)
  | doublePawnPush
  | enPassant
  | castling (flags : Nat)
  | promotion (p : Piece)
  | promotionCapture (p1 : Piece) (p2 : Piece)
deriving DecidableEq, Repr

/-- Move from movegen.rs (the from/to fields are renamed fromSq/toSq because
from is a Lean keyword). -/
structure Move where
  fromSq : Fin 64
  toSq : Fin 64
  piece : Piece
  kind : MoveKind
  sort_score : Nat
deriving DecidableEq, Repr

/-- Position::is_sq_attacked_by from movegen.rs. -/
def is_sq_attacked_by (p : Position) (sq : Fin 64) (side : Colour) : Bool :=
  bbIntersects (pawn_attacks sq side.flip) (p.pieces (.pawn side)) ||
  bbIntersects (knight_attacks sq) (p.pieces (.knight side)) ||
  bbIntersects (king_attacks sq) (p.pieces (.king side)) ||
  bbIntersects (bishop_attacks sq p.occupied)
    (p.pieces (.bishop side) ||| p.pieces (.queen side)) ||
  bbIntersects (rook_attacks sq p.occupied)
    (p.pieces (.rook side) ||| p.pieces (.queen side))

/-- Position::is_check. The source takes the lsb of the king bitboard and
panics when the king is missing; the model returns false on that unreachable
branch. -/
def is_check (p : Position) (side : Colour) : Bool :=
  match get_lsb (p.pieces (.king side)) with
  | some kingSq => is_sq_attacked_by p kingSq side.flip
  | none => false

/-- Both back ranks, the mask 0xff | 0xff << 56 from gen_quiet_moves. -/
def backranks : Nat := 0xff ||| (0xff <<< 56)

/-- Position::gen_double_pawn_pushes: pushed moves for one pawn. -/
def gen_double_pawn_pushes (p : Position) (c : Colour) (fromSq : Fin 64) :
    List Move :=
  match c with
  | .white =>
    if 48 ≤ fromSq.val ∧ fromSq.val ≤ 55 then
      let path := bbFrom fromSq >>> 8
      let path := path ||| (path >>> 8)
      if bbIntersects p.occupied path then []
      else
        match sqAdd fromSq (-16) with
        | some toSq =>
          [{ fromSq := fromSq, toSq := toSq, piece := .pawn c,
             kind := .doublePawnPush, sort_score := 0 }]
        | none => []
    else []
  | .black =>
    if 8 ≤ fromSq.val ∧ fromSq.val ≤ 15 then
      let path := shl64 (bbFrom fromSq) 8
      let path := path ||| shl64 path 8
      if bbIntersects p.occupied path then []
      else
        match sqAdd fromSq 16 with
        | some toSq =>
          [{ fromSq := fromSq, toSq := toSq, piece := .pawn c,
             kind := .doublePawnPush, sort_score := 0 }]
        | none => []
    else []

/-- Position::gen_en_passant: pushed moves. -/
def gen_en_passant (p : Position) : List Move :=
  match p.en_passant with
  | some toSq =>
    (bbList (pawn_attacks toSq p.turn.flip &&& p.pieces (.pawn p.turn))).map
      (fun fromSq =>
        { fromSq := fromSq, toSq := toSq, piece := .pawn p.turn,
          kind := .enPassant, sort_score := 0 })
  | none => []

/-- Position::gen_castling: pushed moves. -/
def gen_castling (p : Position) : List Move :=
  if p.castling == 0 then []
  else
    let occ := p.occupied
    match p.turn with
    | .white =>
      (if flagsContain p.castling WK_FLAG && occ &&& (0x60 <<< 56) == 0
          && !is_sq_attacked_by p 61 .black && !is_sq_attacked_by p 62 .black
          && !is_sq_attacked_by p 60 .black then
        [{ fromSq := 60, toSq := 62, piece := .king .white,
           kind := .castling WK_FLAG, sort_score := 0 }]
      else []) ++
      (if flagsContain p.castling WQ_FLAG && occ &&& (0xe <<< 56) == 0
          && !is_sq_attacked_by p 59 .black && !is_sq_attacked_by p 58 .black
          && !is_sq_attacked_by p 60 .black then
        [{ fromSq := 60, toSq := 58, piece := .king .white,
           kind := .castling WQ_FLAG, sort_score := 0 }]
      else [])
    | .black =>
      (if flagsContain p.castling BK_FLAG && occ &&& 0x60 == 0
          && !is_sq_attacked_by p 5 .white && !is_sq_attacked_by p 6 .white
          && !is_sq_attacked_by p 4 .white then
        [{ fromSq := 4, toSq := 6, piece := .king .black,
           kind := .castling BK_FLAG, sort_score := 0 }]
      else []) ++
      (if flagsContain p.castling BQ_FLAG && occ &&& 0xe == 0
          && !is_sq_attacked_by p 3 .white && !is_sq_attacked_by p 2 .white
          && !is_sq_attacked_by p 4 .white then
        [{ fromSq := 4, toSq := 2, piece := .king .black,
           kind := .castling BQ_FLAG, sort_score := 0 }]
      else [])

/-- Target bitboard of a piece in gen_quiet_moves before masking with the
complement of occupancy. -/
def quietTargets (p : Position) (occ : Nat) (pc : Piece) (fromSq : Fin 64) :
    Nat :=
  match pc with
  | .pawn c => pawn_pushes fromSq c
  | .knight _ => knight_attacks fromSq
  | .bishop _ => bishop_attacks fromSq occ
  | .rook _ => rook_attacks fromSq occ
  | .queen _ => bishop_attacks fromSq occ ||| rook_attacks fromSq occ
  | .king _ => king_attacks fromSq

/-- Moves pushed by gen_quiet_moves for one piece on one square (the double
pawn pushes precede the single-push handling as in the source). -/
def quietFor (p : Position) (occ : Nat) (pc : Piece) (fromSq : Fin 64) :
    List Move :=
  let bb := quietTargets p occ pc fromSq &&& bbNot occ
  let dpp := match pc with
    | .pawn c => gen_double_pawn_pushes p c fromSq
    | _ => []
  let rest := match pc with
    | .pawn c =>
      if bbIntersects bb backranks then
        match get_lsb bb with
        | some toSq =>
          [.queen c, .rook c, .bishop c, .knight c].map (fun promoted =>
            { fromSq := fromSq, toSq := toSq, piece := pc,
              kind := .promotion promoted, sort_score := 0 })
        | none => []
      else
        (bbList bb).map (fun toSq =>
          { fromSq := fromSq, toSq := toSq, piece := pc, kind := .quiet,
            sort_score := 0 })
    | _ =>
      (bbList bb).map (fun toSq =>
        { fromSq := fromSq, toSq := toSq, piece := pc, kind := .quiet,
          sort_score := 0 })
  dpp ++ rest

/-- Position::gen_quiet_moves as the list of pushed moves in push order. -/
def gen_quiet_moves (p : Position) : List Move :=
  let occ := p.occupied
  gen_castling p ++
  (iter_colour p.turn).flatMap (fun pc =>
    (bbList (p.pieces pc)).flatMap (fun fromSq => quietFor p occ pc fromSq))

/-- Target bitboard of a piece in gen_captures before masking with the
opponent occupancy. -/
def captureTargets (p : Position) (occ : Nat) (pc : Piece) (fromSq : Fin 64) :
    Nat :=
  match pc with
  | .pawn c => pawn_attacks fromSq c
  | .knight _ => knight_attacks fromSq
  | .bishop _ => bishop_attacks fromSq occ
  | .rook _ => rook_attacks fromSq occ
  | .queen _ => bishop_attacks fromSq occ ||| rook_attacks fromSq occ
  | .king _ => king_attacks fromSq

/-- Moves pushed by gen_captures for one piece on one square. The source
unwraps piece_on of the target; the model returns no move on that unreachable
none branch. -/
def capturesFor (p : Position) (occ : Nat) (pc : Piece) (fromSq : Fin 64) :
    List Move :=
  let bb := captureTargets p occ pc fromSq &&& p.occupancy p.turn.flip
  (bbList bb).flatMap (fun toSq =>
    match piece_on p toSq with
    | some captured =>
      match pc with
      | .pawn c =>
        if toSq.val ≥ 56 ∨ toSq.val ≤ 7 then
          [.queen c, .rook c, .bishop c, .knight c].map (fun promoted =>
            { fromSq := fromSq, toSq := toSq, piece := pc,
              kind := .promotionCapture promoted captured, sort_score := 0 })
        else
          [{ fromSq := fromSq, toSq := toSq, piece := pc,
             kind := .capture captured, sort_score := 0 }]
      | _ =>
        [{ fromSq := fromSq, toSq := toSq, piece := pc,
           kind := .capture captured, sort_score := 0 }]
    | none => [])

/-- Position::gen_captures as the list of pushed moves in push order. -/
def gen_captures (p : Position) : List Move :=
  let occ := p.occupied
  gen_en_passant p ++
  (iter_colour p.turn).flatMap (fun pc =>
    (bbList (p.pieces pc)).flatMap (fun fromSq => capturesFor p occ pc fromSq))

/-- Position::gen_moves: captures first, then quiet moves, in push order. -/
def gen_moves (p : Position) : List Move :=
  gen_captures p ++ gen_quiet_moves p

/-- Offset of the pawn codes in the Zobrist table (zobrist.rs). -/
def PAWN_OFFSET : Nat := 64 * 10
/-- Offset of the castling codes. -/
def CASTLING_OFFSET : Nat := PAWN_OFFSET + 48 * 2
/-- Offset of the en-passant file codes. -/
def EN_PASSANT_OFFSET : Nat := CASTLING_OFFSET + 16
/-- Offset of the side-to-move code. -/
def TURN_OFFSET : Nat := EN_PASSANT_OFFSET + 8

/-- ZobristCodes::piece. Pawn codes live in a 48-entry block per colour
(squares 8..55); the source subtracts 8 from the square index with usize
arithmetic (a panic on back-rank pawns, truncated subtraction here). -/
def zpiece (zc : Nat → Nat) (p : Piece) (sq : Fin 64) : Nat :=
  match p with
  | .pawn .white => zc (PAWN_OFFSET + sq.val - 8)
  | .pawn .black => zc (PAWN_OFFSET + 48 + sq.val - 8)
  | _ => zc (p.idx * 64 + sq.val)

/-- ZobristCodes::castling. -/
def zcastling (zc : Nat → Nat) (flags : Nat) : Nat := zc (CASTLING_OFFSET + flags)

/-- ZobristCodes::en_passant (indexed by file). -/
def zep (zc : Nat → Nat) (sq : Fin 64) : Nat := zc (EN_PASSANT_OFFSET + sq.val % 8)

/-- ZobristCodes::turn. -/
def zturn (zc : Nat → Nat) : Nat := zc TURN_OFFSET

/-- Position::gen_zobrist_hash as a value: XOR of the per-piece per-square
codes (piece bitboards enumerated in 0..11 order), the castling code, the
en-passant code if set, and the side-to-move code if White to move. The
source stores this value into the hash field. -/
def gen_zobrist_hash (zc : Nat → Nat) (p : Position) : Nat :=
  let h := pieceOrder.foldl
    (fun h pc => (bbList (p.pieces pc)).foldl (fun h sq => h ^^^ zpiece zc pc sq) h) 0
  let h := h ^^^ zcastling zc p.castling
  let h := match p.en_passant with
    | some sq => h ^^^ zep zc sq
    | none => h
  match p.turn with
  | .white => h ^^^ zturn zc
  | .black => h

/-- Prelude of Position::make_move: advance the clocks, clear en passant,
move the piece on its own bitboard and occupancy, XOR the origin-square code
out of the hash. The source then tests the en-passant field for the hash
update, but the field was already cleared two lines above, so that branch is
dead; it is embedded verbatim. -/
def mmPrelude (zc : Nat → Nat) (p : Position) (mv : Move) : Position :=
  let s := { p with halfmove := (p.halfmove + 1) % 256,
                    ply := (p.ply + 1) % 256,
                    en_passant := none }
  let from_to_bb := bbFrom mv.fromSq ||| bbFrom mv.toSq
  let s := { s with pieces := Function.update s.pieces mv.piece
                      (s.pieces mv.piece ^^^ from_to_bb) }
  let s := { s with occupancy := Function.update s.occupancy s.turn
                      (s.occupancy s.turn ^^^ from_to_bb) }
  let s := { s with hash := s.hash ^^^ zpiece zc mv.piece mv.fromSq }
  match s.en_passant with
  | some sq => { s with hash := s.hash ^^^ zep zc sq }
  | none => s

/-- MoveKind match of Position::make_move. The state still has the original
side to move in turn at this point. -/
def mmApplyKind (zc : Nat → Nat) (s : Position) (mv : Move) : Position :=
  let to_bb := bbFrom mv.toSq
  match mv.kind with
  | .quiet =>
    { s with hash := s.hash ^^^ zpiece zc mv.piece mv.toSq }
  | .capture cp =>
    let s := { s with pieces := Function.update s.pieces cp (s.pieces cp ^^^ to_bb) }
    let s := { s with halfmove := 0, last_irreversible := s.ply }
    let s := { s with occupancy := Function.update s.occupancy s.turn.flip
                        (s.occupancy s.turn.flip ^^^ to_bb) }
    { s with hash := s.hash ^^^ zpiece zc cp mv.toSq }
  | .promotion pp =>
    let s := { s with pieces := Function.update s.pieces mv.piece
                        (s.pieces mv.piece ^^^ to_bb) }
    let s := { s with pieces := Function.update s.pieces pp (s.pieces pp ^^^ to_bb) }
    { s with hash := s.hash ^^^ zpiece zc pp mv.toSq }
  | .promotionCapture p1 p2 =>
    let s := { s with pieces := Function.update s.pieces mv.piece
                        (s.pieces mv.piece ^^^ to_bb) }
    let s := { s with pieces := Function.update s.pieces p1 (s.pieces p1 ^^^ to_bb) }
    let s := { s with pieces := Function.update s.pieces p2 (s.pieces p2 ^^^ to_bb) }
    let s := { s with occupancy := Function.update s.occupancy s.turn.flip
                        (s.occupancy s.turn.flip ^^^ to_bb) }
    { s with hash := s.hash ^^^ zpiece zc p1 mv.toSq ^^^ zpiece zc p2 mv.toSq }
  | .doublePawnPush =>
    let ep := match s.turn with
      | .white => sqAdd mv.fromSq (-8)
      | .black => sqAdd mv.fromSq 8
    let s := { s with en_passant := ep }
    { s with hash := s.hash ^^^ zpiece zc mv.piece mv.toSq ^^^
        (match ep with | some e => zep zc e | none => 0) }
  | .enPassant =>
    let captured : Fin 64 :=
      ⟨(mv.fromSq.val / 8) * 8 + mv.toSq.val % 8, by omega⟩
    let s := { s with occupancy := Function.update s.occupancy s.turn.flip
                        (bbReset (s.occupancy s.turn.flip) captured) }
    let s := { s with pieces := Function.update s.pieces (.pawn s.turn.flip)
                        (bbReset (s.pieces (.pawn s.turn.flip)) captured) }
    { s with hash := s.hash ^^^ zpiece zc mv.piece mv.toSq }
  | .castling cf =>
    let pair : Nat × Colour :=
      if cf == WK_FLAG then (bbFrom 61 ||| bbFrom 63, .white)
      else if cf == WQ_FLAG then (bbFrom 59 ||| bbFrom 56, .white)
      else if cf == BK_FLAG then (bbFrom 5 ||| bbFrom 7, .black)
      else if cf == BQ_FLAG then (bbFrom 3 ||| bbFrom 0, .black)
      else (0, .white)
    let from_to := pair.1
    let c := pair.2
    let s := { s with pieces := Function.update s.pieces (.rook c)
                        (s.pieces (.rook c) ^^^ from_to) }
    let s := { s with occupancy := Function.update s.occupancy c
                        (s.occupancy c ^^^ from_to) }
    let s := { s with hash := s.hash ^^^ zpiece zc mv.piece mv.toSq }
    let s := { s with hash := (bbList from_to).foldl
                        (fun h sq => h ^^^ zpiece zc (.rook c) sq) s.hash }
    { s with last_irreversible := s.ply }

/-- Castling-right maintenance of Position::make_move: a king move clears
both of that colour's rights, and any move touching a corner square clears
the corresponding right and marks the position irreversible. -/
def mmClearRights (s : Position) (mv : Move) (from_to_bb : Nat) : Position :=
  let s := match mv.piece with
    | .king .white => { s with castling := flagsRemove s.castling (WK_FLAG ||| WQ_FLAG) }
    | .king .black => { s with castling := flagsRemove s.castling (BK_FLAG ||| BQ_FLAG) }
    | _ => s
  let s := if bbIntersects from_to_bb (bbFrom 63) && flagsContain s.castling WK_FLAG
    then { s with castling := flagsRemove s.castling WK_FLAG,
                  last_irreversible := s.ply }
    else s
  let s := if bbIntersects from_to_bb (bbFrom 56) && flagsContain s.castling WQ_FLAG
    then { s with castling := flagsRemove s.castling WQ_FLAG,
                  last_irreversible := s.ply }
    else s
  let s := if bbIntersects from_to_bb (bbFrom 7) && flagsContain s.castling BK_FLAG
    then { s with castling := flagsRemove s.castling BK_FLAG,
                  last_irreversible := s.ply }
    else s
  if bbIntersects from_to_bb (bbFrom 0) && flagsContain s.castling BQ_FLAG
    then { s with castling := flagsRemove s.castling BQ_FLAG,
                  last_irreversible := s.ply }
    else s

/-- Position::make_move from make_move.rs as a function returning the new
position (the undo copy the source returns is the unchanged argument). -/
def make_move (zc : Nat → Nat) (p : Position) (mv : Move) : Position :=
  let from_to_bb := bbFrom mv.fromSq ||| bbFrom mv.toSq
  let s := mmPrelude zc p mv
  let s := mmApplyKind zc s mv
  let s := mmClearRights s mv from_to_bb
  let s := match mv.piece with
    | .pawn _ => { s with halfmove := 0, last_irreversible := s.ply }
    | _ => s
  { s with turn := s.turn.flip }

/-- The twelve piece bitboards of the starting position, the result of parsing
STARTING_FEN (fen.rs). Index 0 is a8 and 63 is h1, so White occupies the
high indices. -/
def startpos_pieces : Piece → Nat
  | .pawn .white => 0x00FF000000000000
  | .knight .white => (1 <<< 57) ||| (1 <<< 62)
  | .bishop .white => (1 <<< 58) ||| (1 <<< 61)
  | .rook .white => (1 <<< 56) ||| (1 <<< 63)
  | .queen .white => 1 <<< 59
  | .king .white => 1 <<< 60
  | .pawn .black => 0xFF00
  | .knight .black => (1 <<< 1) ||| (1 <<< 6)
  | .bishop .black => (1 <<< 2) ||| (1 <<< 5)
  | .rook .black => 1 ||| (1 <<< 7)
  | .queen .black => 1 <<< 3
  | .king .black => 1 <<< 4

/-- The starting position before its hash is filled in; occupancy is the
union of each colour's piece bitboards, exactly as read_fen computes it. -/
def startposNH : Position :=
  { pieces := startpos_pieces,
    occupancy := fun c => match c with
      | .white => 0xFFFF000000000000
      | .black => 0xFFFF,
    turn := .white, castling := 15, en_passant := none,
    halfmove := 0, ply := 0, hash := 0, last_irreversible := 0 }

/-- Position::from_fen(STARTING_FEN): the starting position with its Zobrist
hash generated from the given code table (read_fen ends with
gen_zobrist_hash). -/
def startpos (zc : Nat → Nat) : Position :=
  { startposNH with hash := gen_zobrist_hash zc startposNH }

/-- A concrete instance of the Zobrist code table (the source fills the table
with 761 random words, so any particular assignment is a possible table):
every code is zero except the side-to-move code, which is one. -/
def zc0 : Nat → Nat := fun i => if i = TURN_OFFSET then 1 else 0

/-- The quiet pawn push a2a3 in the starting position. -/
def mvA2A3 : Move :=
  { fromSq := 48, toSq := 40, piece := .pawn .white, kind := .quiet,
    sort_score := 0 }

/-- Helper: the ply field after make_move is always the wrapped increment,
whatever the move. -/
theorem make_move_ply (zc : Nat → Nat) (p : Position) (mv : Move) :
    (make_move zc p mv).ply = (p.ply + 1) % 256 := by
  have hpre : (mmPrelude zc p mv).ply = (p.ply + 1) % 256 := rfl
  have happ : ∀ s : Position, (mmApplyKind zc s mv).ply = s.ply := by
    intro s
    unfold mmApplyKind
    cases mv.kind <;> rfl
  have hclr : ∀ s : Position, ∀ ft : Nat, (mmClearRights s mv ft).ply = s.ply := by
    intro s ft
    unfold mmClearRights
    repeat' (first | split | dsimp only)
    all_goals rfl
  unfold make_move
  cases hp : mv.piece <;> simp [hclr, happ, hpre]

/-- C10: make_move increments the 8-bit ply counter with unchecked
arithmetic. Under the precondition ply < 255 the update is total with
ply + 1; from ply = 255 the u8 increment overflows and, in the wrapping
model, the field becomes 0, so lines longer than 255 plies are outside the
safe domain of make_move. -/
theorem c10_ply_increment_overflow (zc : Nat → Nat) (p : Position) (mv : Move) :
    (p.ply < 255 → (make_move zc p mv).ply = p.ply + 1) ∧
    (p.ply = 255 → (make_move zc p mv).ply = 0) := by
  constructor <;> intro h <;> rw [make_move_ply] <;> omega

/-- Position with the ply counter at the u8 maximum, for the overflow case of
C10. -/
def pos255 : Position := { startposNH with ply := 255 }

/-- Witness for C10: both branches instantiated at a concrete position and
move. -/
theorem c10_ply_increment_overflow_witness :
    startposNH.ply < 255 ∧ (make_move zc0 startposNH mvA2A3).ply = startposNH.ply + 1 ∧
    pos255.ply = 255 ∧ (make_move zc0 pos255 mvA2A3).ply = 0 :=
  ⟨by decide,
   (c10_ply_increment_overflow zc0 startposNH mvA2A3).1 (by decide),
   by decide,
   (c10_ply_increment_overflow zc0 pos255 mvA2A3).2 (by decide)⟩

/-- Display for Square (bitboard.rs): file letter then rank digit. -/
def squareStr (s : Fin 64) : String :=
  String.mk [Char.ofNat (97 + s.val % 8), Char.ofNat (48 + (8 - s.val / 8))]

/-- Display for Piece (position.rs): uppercase for White, lowercase for
Black. -/
def pieceStr : Piece → String
  | .pawn .white => "P"
  | .knight .white => "N"
  | .bishop .white => "B"
  | .rook .white => "R"
  | .queen .white => "Q"
  | .king .white => "K"
  | .pawn .black => "p"
  | .knight .black => "n"
  | .bishop .black => "b"
  | .rook .black => "r"
  | .queen .black => "q"
  | .king .black => "k"

/-- Display for Move (movegen.rs): from square, to square, and for
promotions the Display form of the promoted piece. -/
def moveStr (mv : Move) : String :=
  let promotion := match mv.kind with
    | .promotion pp => pieceStr pp
    | .promotionCapture pp _ => pieceStr pp
    | _ => ""
  squareStr mv.fromSq ++ squareStr mv.toSq ++ promotion

/-- The white queen promotion e7e8q (as a record; e7 is index 12, e8 is
index 4). -/
def mvE7E8Q : Move :=
  { fromSq := 12, toSq := 4, piece := .pawn .white,
    kind := .promotion (.queen .white), sort_score := 0 }

/-- C7: the claim says promotion letters are appended in lowercase always,
never e7e8Q; but Display for Move appends the Display form of the promoted
Piece, which is uppercase for White, so a white queen promotion renders as
e7e8Q, not e7e8q. -/
theorem c7_promotion_display_bug :
    moveStr mvE7E8Q = "e7e8Q" ∧ "e7e8Q" ≠ ("e7e8q" : String) := by
  constructor
  · rfl
  · decide

/-- C1: the Zobrist invariant fails after make_move. At the starting position
(whose hash equals the full recomputation) the generated quiet push a2a3
leaves a hash different from gen_zobrist_hash of the resulting position:
make_move never toggles the side-to-move code (nor the castling code, nor
does it remove a previous en-passant code, since the field is tested after
being cleared). Here the code table is zero except for a side-to-move code
of one, so the two sides of the invariant differ by exactly that code. -/
theorem c1_zobrist_hash_bug :
    (startpos zc0).hash = gen_zobrist_hash zc0 (startpos zc0) ∧
    mvA2A3 ∈ gen_moves (startpos zc0) ∧
    (make_move zc0 (startpos zc0) mvA2A3).hash ≠
      gen_zobrist_hash zc0 (make_move zc0 (startpos zc0) mvA2A3) :=
  ⟨by decide, by decide, by decide⟩

/-- Move::NULL from movegen.rs (square A1 is index 56). -/
def mvNULL : Move :=
  { fromSq := 56, toSq := 56, piece := .pawn .white, kind := .quiet,
    sort_score := 0 }

/-- MoveList as its pushed prefix plus the consumed-prefix cursor. -/
structure MoveListS where
  moves : List Move
  curr : Nat

/-- Scan loop of the MoveList Iterator: for each index i from curr+1 to the
end, when the move there beats the running best, swap it into position curr
and make it the running best. -/
def msScan (curr : Nat) : List Nat → Move × List Move → Move × List Move
  | [], st => st
  | i :: rest, (nb, ms) =>
    let mi := ms.getD i mvNULL
    if nb.sort_score < mi.sort_score then
      msScan curr rest (mi, (ms.set i (ms.getD curr mvNULL)).set curr mi)
    else
      msScan curr rest (nb, ms)

/-- Iterator::next for MoveList: none once the cursor reaches the length,
otherwise the incremental selection-sort step. -/
def msNext (ml : MoveListS) : Option (Move × MoveListS) :=
  if ml.curr ≥ ml.moves.length then none
  else
    let st := msScan ml.curr
      (List.range' (ml.curr + 1) (ml.moves.length - (ml.curr + 1)))
      (ml.moves.getD ml.curr mvNULL, ml.moves)
    some (st.1, { moves := st.2, curr := ml.curr + 1 })

/-- Repeatedly calling next with enough fuel. -/
def msIterGo : Nat → MoveListS → List Move
  | 0, _ => []
  | fuel + 1, ml =>
    match msNext ml with
    | none => []
    | some (mv, ml2) => mv :: msIterGo fuel ml2

/-- The full sequence a MoveList iteration yields. -/
def msIter (ml : MoveListS) : List Move :=
  msIterGo (ml.moves.length - ml.curr) ml

/-- Position::find_algebraic_move from make_move.rs: iterate the generated
MoveList and return the first move whose display form equals the string. -/
def find_algebraic_move (p : Position) (mv_str : String) : Option Move :=
  (msIter { moves := gen_moves p, curr := 0 }).find? (fun mv => moveStr mv == mv_str)

/-- Search constants from search.rs. -/
def MAX_DEPTH : Nat := 64
/-- Size of the flat triangular PV buffer. -/
def PV_SIZE : Nat := MAX_DEPTH * (MAX_DEPTH + 1) / 2
/-- Score of a drawn position. -/
def STALEMATE : Int := 0
/-- Mate score constant. -/
def CHECKMATE : Int := 1000000
/-- Sentinel returned while unravelling an aborted search. -/
def UNRAVEL : Int := CHECKMATE + 1
/-- Fifty-move-rule threshold in plies. -/
def HALFMOVE_DRAW_COUNT : Nat := 100
/-- MAX_GAME_PLY from engine.rs. -/
def MAX_GAME_PLY : Nat := 256
/-- Value of i32::MAX, the initial aspiration bounds. -/
def I32_MAX : Int := 2147483647

/-- Indices scanned by detect_repetition: the closed range from
last_irreversible to ply, reversed, in steps of two. -/
def repScan (li ply : Nat) : List Nat :=
  (List.range ((ply - li) / 2 + 1)).map (fun k => ply - 2 * k)

/-- Counting loop of detect_repetition with its early returns: count matches
of the current hash in the history slots, reporting a draw at two matches,
or at one match when not at the root. -/
def repLoopGo (hash : Nat) (history : List Nat) (is_root : Bool) :
    List Nat → Nat → Bool
  | [], _ => false
  | i :: rest, count =>
    let count := if history.getD i 0 == hash then count + 1 else count
    if count ≥ 2 || (count == 1 && !is_root) then true
    else repLoopGo hash history is_root rest count

/-- detect_repetition from search.rs. -/
def detect_repetition (pos : Position) (history : List Nat) (is_root : Bool) :
    Bool :=
  if pos.ply - pos.last_irreversible < 4 then false
  else repLoopGo pos.hash history is_root
    (repScan pos.last_irreversible pos.ply) 0

/-- Messages a search worker sends on its info channel (SendInfo in
search.rs, with the wall-clock time field omitted from the model). -/
inductive SendMsg where
  | full (depth seldepth : Nat) (score : Int) (nodes : Nat)
         (pv : List (Option Move))
  | currmove (depth : Nat) (mv : Move) (mv_num : Nat)
  | done (mv : Option Move)
deriving DecidableEq, Repr

/-- SearchInfo from search.rs. The two channels are modelled as the list of
messages sent so far (tx) and an oracle stream of try_recv outcomes (rx):
each poll consumes the next outcome, which says whether a command was
available at that moment; an exhausted stream answers no. The Instant clock
is dropped. -/
structure SearchInfo where
  depth : Nat
  seldepth : Nat
  score : Int
  nodes : Nat
  stop_nodes : Nat
  triangular_pv : List (Option Move)
  current_branch : List (Option Move)
  history : List Nat
  rxq : List Bool
  sent : List SendMsg
  stop : Bool

/-- Stop poll of negamax and quiescence_search: the channel is consulted
only when the iteration depth exceeds one and the node counter is at a
multiple of ten thousand. -/
def pollStop (info : SearchInfo) : Bool × SearchInfo :=
  if info.depth > 1 && info.nodes % 10000 == 0 then
    match info.rxq with
    | b :: rest => (b, { info with rxq := rest })
    | [] => (false, info)
  else (false, info)

/-- SearchInfo::send_full (the time field is dropped). -/
def send_full (info : SearchInfo) : SearchInfo :=
  { info with sent := info.sent ++
      [.full info.depth info.seldepth info.score info.nodes
        (info.triangular_pv.take MAX_DEPTH)] }

/-- SearchInfo::hoist_pv: copy len entries from source to target, stopping at
the first none. -/
def hoist_pv_go (t s : Nat) : Nat → List (Option Move) → List (Option Move)
  | 0, pv => pv
  | n + 1, pv =>
    match pv.getD s none with
    | none => pv
    | some mv => hoist_pv_go (t + 1) (s + 1) n (pv.set t (some mv))

/-- SearchInfo::hoist_pv on the state. -/
def hoist_pv (info : SearchInfo) (target source_idx len : Nat) : SearchInfo :=
  { info with triangular_pv := hoist_pv_go target source_idx len info.triangular_pv }

/-- MVV_LVA_TBL from search.rs, row = victim, column = attacker. -/
def mvvLvaTbl : List (List Nat) :=
  [[6, 5, 4, 3, 2, 1],
   [12, 11, 10, 9, 8, 7],
   [18, 17, 16, 15, 14, 13],
   [24, 23, 22, 21, 20, 19],
   [30, 29, 28, 27, 26, 25],
   [0, 0, 0, 0, 0, 0]]

/-- Kind index of a piece (the table rows and columns are per kind; the
source indexes the 6-wide rows with the Piece-to-usize conversion, which
only stays in bounds for the kind part). -/
def kindIdx (p : Piece) : Nat := p.idx % 6

/-- mvv_lva from search.rs: table value for captures and promotion captures,
zero otherwise. -/
def mvv_lva (mv : Move) : Nat :=
  match mv.kind with
  | .capture victim => (mvvLvaTbl.getD (kindIdx victim) []).getD (kindIdx mv.piece) 0
  | .promotionCapture _ victim =>
    (mvvLvaTbl.getD (kindIdx victim) []).getD (kindIdx mv.piece) 0
  | _ => 0

/-- MoveList::score: add 100 when the move equals the triangular PV entry at
the current ply, plus the MVV-LVA value. -/
def score_moves (moves : List Move) (ply : Nat) (info : SearchInfo) :
    List Move :=
  moves.map (fun mv =>
    let sc := if (info.triangular_pv.getD ply none).any (fun pv_mv => mv == pv_mv)
      then mv.sort_score + 100
      else mv.sort_score
    { mv with sort_score := sc + mvv_lva mv })

/-- Swap loop of static_exchange_evaluation. The fixed arguments are the
piece-union bitboards computed at entry; the loop state is the depth, side,
current attacker and its singleton bitboard, the shrinking occupancy, the
removed set, the attacker set and the gain array. Returns the final depth and
gain array. The loop runs at most once per man on the board, so a fuel of 33
is never exhausted. -/
def seeLoopGo (value : Piece → Int) (pos : Position) (toSq : Fin 64)
    (bishops rooks queens may_xray : Nat) :
    Nat → Nat → Colour → Piece → Nat → Nat → Nat → Nat → List Int →
    Nat × List Int
  | 0, depth, _, _, _, _, _, _, gain => (depth, gain)
  | fuel + 1, depth, side, attacker, from_bb, occ, removed, attacks, gain =>
    let depth := depth + 1
    let side := side.flip
    let gain := gain.set depth (value attacker - gain.getD (depth - 1) 0)
    if max (-gain.getD (depth - 1) 0) (gain.getD depth 0) < 0 then (depth, gain)
    else
      let attacks := attacks ^^^ from_bb
      let occ := occ ^^^ from_bb
      let removed := removed ||| from_bb
      let attacks :=
        if bbIntersects may_xray from_bb then
          let attacks := match attacker with
            | .rook _ => attacks |||
                (rook_attacks toSq occ &&& (rooks ||| queens) &&& bbNot removed)
            | .queen _ => attacks |||
                (rook_attacks toSq occ &&& (rooks ||| queens) &&& bbNot removed)
            | _ => attacks
          match attacker with
          | .pawn _ => attacks |||
              (bishop_attacks toSq occ &&& (bishops ||| queens) &&& bbNot removed)
          | .bishop _ => attacks |||
              (bishop_attacks toSq occ &&& (bishops ||| queens) &&& bbNot removed)
          | .queen _ => attacks |||
              (bishop_attacks toSq occ &&& (bishops ||| queens) &&& bbNot removed)
          | _ => attacks
        else attacks
      match (iter_colour side).findSome? (fun pc =>
        let intersection := attacks &&& pos.pieces pc
        if intersection ≠ 0 then
          (get_lsb intersection).map (fun sq => (pc, sq))
        else none) with
      | some (pc, sq) =>
        seeLoopGo value pos toSq bishops rooks queens may_xray fuel depth side
          pc (bbFrom sq) occ removed attacks gain
      | none => (depth, gain)

/-- Unrolling loop of static_exchange_evaluation: for depth values from the
final depth minus one down to one, fold the gains back. -/
def seeUnrollGo : Nat → List Int → List Int
  | 0, gain => gain
  | m + 1, gain =>
    seeUnrollGo m (gain.set m (-(max (-gain.getD m 0) (gain.getD (m + 1) 0))))

/-- static_exchange_evaluation from search.rs, parameterised by the external
Piece::value function. -/
def static_exchange_evaluation (value : Piece → Int) (position : Position)
    (fromSq toSq : Fin 64) (attacker : Piece) (target : Piece) : Int :=
  let pawns := position.pieces (.pawn .white) ||| position.pieces (.pawn .black)
  let knights := position.pieces (.knight .white) ||| position.pieces (.knight .black)
  let bishops := position.pieces (.bishop .white) ||| position.pieces (.bishop .black)
  let rooks := position.pieces (.rook .white) ||| position.pieces (.rook .black)
  let queens := position.pieces (.queen .white) ||| position.pieces (.queen .black)
  let may_xray := pawns ||| bishops ||| rooks ||| queens
  let from_bb := bbFrom fromSq
  let occ := position.occupied
  let attacks :=
    (pawn_attacks toSq .white &&& position.pieces (.pawn .white)) |||
    (pawn_attacks toSq .black &&& position.pieces (.pawn .black)) |||
    (knight_attacks toSq &&& knights) |||
    (bishop_attacks toSq occ &&& (bishops ||| queens)) |||
    (rook_attacks toSq occ &&& (rooks ||| queens))
  let gain := (List.replicate 32 (0 : Int)).set 0 (value target)
  let res := seeLoopGo value position toSq bishops rooks queens may_xray 33 0
    position.turn attacker from_bb occ 0 attacks gain
  let gain := seeUnrollGo (res.1 - 1) res.2
  gain.getD 0 0

/-- External interface the search consumes: the evaluator and piece values
(the missing eval module, treated as the spec treats it: pure functions) and
the process-wide Zobrist code table. -/
structure SearchEnv where
  ev : Position → Int
  value : Piece → Int
  zc : Nat → Nat

/-- Capture loop of quiescence_search, parameterised over the recursive call
for children. The unreachable panic on a non-capture kind is modelled by the
en-passant fallback value. -/
def qs_loop (recQs : Position → Int → Int → Nat → SearchInfo → Int × SearchInfo)
    (env : SearchEnv) (pos : Position) (beta : Int) (ply : Nat)
    (standing_pat : Int) :
    List Move → Int → SearchInfo → Int × SearchInfo
  | [], alpha, info => (alpha, info)
  | capture :: rest, alpha, info =>
    let target : Piece := match capture.kind with
      | .capture t => t
      | .promotionCapture _ t => t
      | _ => .pawn pos.turn.flip
    if static_exchange_evaluation env.value pos capture.fromSq capture.toSq
        capture.piece target < 0 then
      qs_loop recQs env pos beta ply standing_pat rest alpha info
    else
      let delta_skip : Bool := match capture.kind with
        | .capture p => decide (standing_pat + env.value p + 200 ≤ alpha)
        | .promotionCapture _ p => decide (standing_pat + env.value p + 200 ≤ alpha)
        | _ => false
      if delta_skip then
        qs_loop recQs env pos beta ply standing_pat rest alpha info
      else
        let child := make_move env.zc pos capture
        if is_check child pos.turn then
          qs_loop recQs env pos beta ply standing_pat rest alpha info
        else
          let info := { info with nodes := info.nodes + 1 }
          let r := recQs child (-beta) (-alpha) (ply + 1) info
          let score := -r.1
          let info := r.2
          if info.nodes > info.stop_nodes || info.stop then
            (min |alpha| UNRAVEL, info)
          else if score ≥ beta then (beta, info)
          else
            let alpha := if score > alpha then score else alpha
            qs_loop recQs env pos beta ply standing_pat rest alpha info

/-- quiescence_search from search.rs, with fuel for the recursion depth (the
source recursion is bounded by the number of captures available; exhausted
fuel returns score 0 on an unreachable branch). -/
def quiescence_search (env : SearchEnv) :
    Nat → Position → Int → Int → Nat → SearchInfo → Int × SearchInfo
  | 0, _, _, _, _, info => (0, info)
  | fuel + 1, pos, alpha, beta, ply, info =>
    let pr := pollStop info
    let info := pr.2
    if pr.1 then (UNRAVEL, { info with stop := true })
    else
      let info := if ply > info.seldepth then { info with seldepth := ply } else info
      let standing_pat := env.ev pos
      if standing_pat ≥ beta then (beta, info)
      else
        let alpha := if standing_pat > alpha then standing_pat else alpha
        let captures := score_moves (gen_captures pos) ply info
        qs_loop (quiescence_search env fuel) env pos beta ply standing_pat
          (msIter { moves := captures, curr := 0 }) alpha info

/-- Move loop of negamax, parameterised over the recursive call for child
positions. The accumulator carries the raised alpha and the legal move
count; after an exhausted list the mate and stalemate scores are produced
when no legal move was found. -/
def negamax_loop
    (recNega : Position → Int → Int → Nat → Nat → Nat → SearchInfo → Int × SearchInfo)
    (zc : Nat → Nat) (pos : Position) (beta : Int)
    (depth ply pv_idx next_pv_idx : Nat) :
    List Move → Int → Nat → SearchInfo → Int × SearchInfo
  | [], alpha, legal_moves, info =>
    if legal_moves == 0 then
      if is_check pos pos.turn then (-CHECKMATE + (ply : Int), info)
      else (STALEMATE, info)
    else (alpha, info)
  | mv :: rest, alpha, legal_moves, info =>
    let child := make_move zc pos mv
    if is_check child pos.turn then
      negamax_loop recNega zc pos beta depth ply pv_idx next_pv_idx rest alpha
        legal_moves info
    else
      let info := { info with
        current_branch := info.current_branch.set ply (some mv) }
      let info := { info with history := info.history.set pos.ply pos.hash }
      let legal_moves := legal_moves + 1
      let info := if ply == 0 then
          { info with sent := info.sent ++ [.currmove info.depth mv legal_moves] }
        else info
      let r := recNega child (-beta) (-alpha) (depth - 1) (ply + 1) next_pv_idx info
      let score := -r.1
      let info := r.2
      if info.nodes > info.stop_nodes || info.stop then
        (min |alpha| UNRAVEL, info)
      else
        let info := { info with nodes := info.nodes + 1 }
        if score ≥ beta then (beta, info)
        else
          let st :=
            if score > alpha then
              let info := { info with
                triangular_pv := info.triangular_pv.set pv_idx (some mv) }
              (score, hoist_pv info (pv_idx + 1) next_pv_idx (MAX_DEPTH - ply - 1))
            else (alpha, info)
          negamax_loop recNega zc pos beta depth ply pv_idx next_pv_idx rest
            st.1 legal_moves st.2

/-- negamax from search.rs, with fuel for the recursion depth (the source
recursion is bounded by depth plus the quiescence extension; exhausted fuel
returns score 0 on an unreachable branch). -/
def negamax (env : SearchEnv) :
    Nat → Position → Int → Int → Nat → Nat → Nat → SearchInfo →
    Int × SearchInfo
  | 0, _, _, _, _, _, _, info => (0, info)
  | fuel + 1, pos, alpha, beta, depth, ply, pv_idx, info =>
    let pr := pollStop info
    let info := pr.2
    if pr.1 then (UNRAVEL, { info with stop := true })
    else
      let info := if ply > info.seldepth then { info with seldepth := ply } else info
      if pos.halfmove ≥ HALFMOVE_DRAW_COUNT ||
          detect_repetition pos info.history (decide (ply < 2)) then
        (STALEMATE, info)
      else if depth == 0 then
        quiescence_search env fuel pos alpha beta ply info
      else
        let next_pv_idx := pv_idx + MAX_DEPTH - ply
        let moves := score_moves (gen_moves pos) ply info
        negamax_loop (negamax env fuel) env.zc pos beta depth ply pv_idx
          next_pv_idx (msIter { moves := moves, curr := 0 }) alpha 0 info

/-- Body of one iterative-deepening iteration: reset the per-iteration
counters, run the root negamax, and emit the Full info unless the score is
the unravel sentinel. -/
def id_body (env : SearchEnv) (fuel : Nat) (pos : Position) (d : Nat)
    (info : SearchInfo) : SearchInfo :=
  let info := { info with depth := d, nodes := 0 }
  let r := negamax env fuel pos (-I32_MAX) I32_MAX d 0 0 info
  let info := { r.2 with score := r.1 }
  if r.1 < UNRAVEL then send_full info else info

/-- Depth loop of iterative_deepening with its three early exits. -/
def id_loop (env : SearchEnv) (fuel : Nat) (pos : Position) (stop_depth : Nat) :
    Nat → SearchInfo → SearchInfo
  | d, info =>
    if h : d > stop_depth ∨ d = 0 then info
    else
      let info := id_body env fuel pos d info
      if CHECKMATE - |info.score| ≤ (d : Int) then info
      else if info.stop || info.nodes ≥ info.stop_nodes then info
      else id_loop env fuel pos stop_depth (d + 1) info
  termination_by d info => stop_depth + 1 - d

/-- SearchInfo::new from search.rs (time dropped, channels as above). -/
def searchInfoNew (stop_nodes : Nat) (history : List Nat) (rxq : List Bool) :
    SearchInfo :=
  { depth := 0, seldepth := 0, score := 0, nodes := 0, stop_nodes := stop_nodes,
    triangular_pv := List.replicate PV_SIZE none,
    current_branch := List.replicate MAX_DEPTH none,
    history := history, rxq := rxq, sent := [], stop := false }

/-- iterative_deepening from search.rs: the initial channel drain is the
identity on the oracle stream (the stream models post-drain outcomes), then
the depth loop from one, then the Done message with the PV head. -/
def iterative_deepening (env : SearchEnv) (fuel : Nat) (pos : Position)
    (stop_depth stop_nodes : Nat) (history : List Nat) (rxq : List Bool) :
    SearchInfo :=
  let info := searchInfoNew stop_nodes history rxq
  let info := id_loop env fuel pos stop_depth 1 info
  { info with sent := info.sent ++ [.done (info.triangular_pv.getD 0 none)] }

/-- Helper: the early-exit condition of the repetition loop is exactly the
count reaching two at the root and one off the root. -/
theorem rep_check_iff (c : Nat) (is_root : Bool) :
    ((decide (c ≥ 2) || (c == 1 && !is_root)) = true) ↔
      (if is_root then 2 else 1) ≤ c := by
  cases is_root <;> simp <;> omega

/-- Helper: the repetition loop with its early returns reports exactly
whether the match count over the whole scanned index list reaches the
root-dependent threshold. -/
theorem rep_loop_iff (h : Nat) (hist : List Nat) (is_root : Bool)
    (idxs : List Nat) (count : Nat)
    (hc : count < if is_root then 2 else 1) :
    (repLoopGo h hist is_root idxs count = true ↔
      (if is_root then 2 else 1) ≤
        count + idxs.countP (fun i => hist.getD i 0 == h)) := by
  induction idxs generalizing count with
  | nil =>
    simp only [repLoopGo, List.countP_nil, Nat.add_zero]
    constructor
    · intro hfalse; cases hfalse
    · intro hle; omega
  | cons i rest ih =>
    rw [repLoopGo]
    by_cases hm : (hist.getD i 0 == h) = true
    · simp only [hm, if_true, List.countP_cons, if_pos]
      by_cases hthr : (if is_root then 2 else 1) ≤ count + 1
      · rw [if_pos (rep_check_iff (count + 1) is_root |>.mpr hthr)]
        constructor
        · intro _; omega
        · intro _; rfl
      · have hcond :
            ¬ ((decide (count + 1 ≥ 2) || (count + 1 == 1 && !is_root)) = true) :=
          fun hx => hthr ((rep_check_iff (count + 1) is_root).mp hx)
        rw [if_neg hcond, ih (count + 1) (by omega)]
        omega
    · have hm2 : (hist.getD i 0 == h) = false := by simpa using hm
      simp only [hm2, Bool.false_eq_true, if_false, List.countP_cons]
      have hcond : ¬ ((decide (count ≥ 2) || (count == 1 && !is_root)) = true) :=
        fun hx => by
          have := (rep_check_iff count is_root).mp hx
          omega
      rw [if_neg hcond, ih count hc]
      omega

/-- Helper: the stop poll never changes the history array. -/
theorem pollStop_history (info : SearchInfo) :
    (pollStop info).2.history = info.history := by
  unfold pollStop
  repeat' (first | split | dsimp only)
  all_goals rfl

/-- Helper: a negamax frame whose entry poll sees no command and whose
repetition test (with root meaning ply below two) fires returns the draw
score. -/
theorem negamax_rep_draw (env : SearchEnv) (fuel : Nat) (pos : Position)
    (alpha beta : Int) (depth ply pv_idx : Nat) (info : SearchInfo)
    (hpoll : (pollStop info).1 = false)
    (hdet : detect_repetition pos info.history (decide (ply < 2)) = true) :
    (negamax env (fuel + 1) pos alpha beta depth ply pv_idx info).1 =
      STALEMATE := by
  rw [negamax]
  simp only [hpoll, Bool.false_eq_true, if_false]
  have haux :
      (if ply > (pollStop info).2.seldepth
        then { (pollStop info).2 with seldepth := ply }
        else (pollStop info).2).history = info.history := by
    split
    · exact pollStop_history info
    · exact pollStop_history info
  rw [haux, hdet]
  simp

/-- C2: detect_repetition reports a draw exactly as the spec states. The
function returns true iff the irreversible window spans at least four plies
and the number of matches of the current hash over the scanned indices (the
window from last_irreversible to ply, descending in steps of two) reaches
two at the root and one otherwise; it always returns false when ply minus
last_irreversible is below four; and inside negamax the test is made with
the root flag meaning search ply below two and a positive result returns the
score 0. -/
theorem c2_detect_repetition_spec (pos : Position) (history : List Nat)
    (is_root : Bool) (h : pos.last_irreversible ≤ pos.ply) :
    (detect_repetition pos history is_root = true ↔
      (4 ≤ pos.ply - pos.last_irreversible ∧
        (if is_root then 2 else 1) ≤
          (repScan pos.last_irreversible pos.ply).countP
            (fun i => history.getD i 0 == pos.hash))) ∧
    (pos.ply - pos.last_irreversible < 4 →
      detect_repetition pos history is_root = false) ∧
    (∀ env fuel alpha beta depth ply pv_idx info,
      (pollStop info).1 = false →
      detect_repetition pos info.history (decide (ply < 2)) = true →
      (negamax env (fuel + 1) pos alpha beta depth ply pv_idx info).1 =
        STALEMATE) := by
  refine ⟨?_, ?_, ?_⟩
  · unfold detect_repetition
    by_cases hlt : pos.ply - pos.last_irreversible < 4
    · rw [if_pos hlt]
      simp only [Bool.false_eq_true, false_iff]
      intro hcon
      omega
    · rw [if_neg hlt,
        rep_loop_iff pos.hash history is_root
          (repScan pos.last_irreversible pos.ply) 0
          (by cases is_root <;> simp)]
      constructor
      · intro hcnt
        exact ⟨by omega, by omega⟩
      · intro hcnt
        omega
  · intro hlt
    unfold detect_repetition
    rw [if_pos hlt]
  · intro env fuel alpha beta depth ply pv_idx info hpoll hdet
    exact negamax_rep_draw env fuel pos alpha beta depth ply pv_idx info hpoll hdet

/-- Position used by the C2 witness: game ply 8, window back to ply 0, with
hash 5. -/
def c2pos : Position :=
  { pieces := fun _ => 0, occupancy := fun _ => 0, turn := .white,
    castling := 0, en_passant := none, halfmove := 0, ply := 8, hash := 5,
    last_irreversible := 0 }

/-- History used by the C2 witness: hash 5 stored at plies 0, 2 and 4. -/
def c2hist : List Nat := [5, 0, 5, 0, 5, 0, 0, 0, 0]

/-- Environment used by search witnesses: zero evaluator and values, with
the concrete Zobrist table. -/
def cenv : SearchEnv := { ev := fun _ => 0, value := fun _ => 0, zc := zc0 }

/-- Search state used by the C2 witness. -/
def c2info : SearchInfo := searchInfoNew 100 c2hist []

/-- Witness for C2: at the concrete position the repetition fires (three
matches in the scanned window), shrinking the window below four plies kills
it, and a negamax frame at search ply 2 returns the draw score on it. -/
theorem c2_detect_repetition_spec_witness :
    detect_repetition c2pos c2hist true = true ∧
    detect_repetition { c2pos with last_irreversible := 6 } c2hist true = false ∧
    (negamax cenv 1 c2pos (-1) 1 3 2 0 c2info).1 = STALEMATE :=
  ⟨(c2_detect_repetition_spec c2pos c2hist true (by decide)).1.mpr
      ⟨by decide, by decide⟩,
   (c2_detect_repetition_spec { c2pos with last_irreversible := 6 } c2hist true
      (by decide)).2.1 (by decide),
   (c2_detect_repetition_spec c2pos c2hist true (by decide)).2.2 cenv 0
      (-1) 1 3 2 0 c2info (by decide) (by decide)⟩

/-- Helper: swapping two entries of a list is a permutation. -/
theorem set_set_swap_perm (l : List Move) (i j : Nat) (hij : i < j)
    (hj : j < l.length) :
    ((l.set j (l.getD i mvNULL)).set i (l.getD j mvNULL)).Perm l := by
  have hi : i < l.length := lt_trans hij hj
  rw [List.perm_iff_count]
  intro a
  have hA : l.getD i mvNULL = l[i] := by
    rw [List.getD_eq_getElem?_getD, List.getElem?_eq_getElem hi]
    rfl
  have hB : l.getD j mvNULL = l[j] := by
    rw [List.getD_eq_getElem?_getD, List.getElem?_eq_getElem hj]
    rfl
  have hi2 : i < (l.set j (l.getD i mvNULL)).length := by
    rw [List.length_set]; exact hi
  rw [List.count_set _ _ _ _ hi2, List.count_set _ _ _ _ hj]
  have hgi : (l.set j (l.getD i mvNULL))[i] = l[i] :=
    List.getElem_set_ne (by omega) _
  rw [hgi, hA, hB]
  have hjmem : l[j] ∈ l := List.getElem_mem hj
  have himem : l[i] ∈ l := List.getElem_mem hi
  by_cases h1 : (l[i] == a) = true <;> by_cases h2 : (l[j] == a) = true
  · simp only [h1, h2, if_true]
    have : 1 ≤ List.count a l := by
      rw [beq_iff_eq] at h2; subst h2
      exact List.count_pos_iff.mpr hjmem
    omega
  · have h2f : (l[j] == a) = false := by simpa using h2
    simp only [h1, h2f, if_true, Bool.false_eq_true, if_false]
    have : 1 ≤ List.count a l := by
      rw [beq_iff_eq] at h1; subst h1
      exact List.count_pos_iff.mpr himem
    omega
  · have h1f : (l[i] == a) = false := by simpa using h1
    simp only [h1f, h2, if_true, Bool.false_eq_true, if_false]
    have : 1 ≤ List.count a l := by
      rw [beq_iff_eq] at h2; subst h2
      exact List.count_pos_iff.mpr hjmem
    omega
  · have h1f : (l[i] == a) = false := by simpa using h1
    have h2f : (l[j] == a) = false := by simpa using h2
    simp only [h1f, h2f, Bool.false_eq_true, if_false]
    omega


theorem take_set_of_le (l : List Move) (i : Nat) (v : Move) (n : Nat)
    (h : n ≤ i) : (l.set i v).take n = l.take n := by
  apply List.ext_getElem?
  intro m
  rw [List.getElem?_take, List.getElem?_take]
  split
  · rename_i hm
    rw [List.getElem?_set]
    rw [if_neg (by omega)]
  · rfl

theorem mem_take_drop_getElem (l : List Move) (c k : Nat) (x : Move)
    (hx : x ∈ (l.drop c).take k) :
    ∃ m, m < k ∧ c + m < l.length ∧ l.getD (c + m) mvNULL = x := by
  rw [List.mem_iff_getElem] at hx
  obtain ⟨m, hm, hval⟩ := hx
  have hmk : m < k := by
    have := hm
    rw [List.length_take] at this
    omega
  have hml : m < (l.drop c).length := by
    have := hm
    rw [List.length_take] at this
    omega
  have hcm : c + m < l.length := by
    rw [List.length_drop] at hml
    omega
  refine ⟨m, hmk, hcm, ?_⟩
  rw [List.getD_eq_getElem?_getD, List.getElem?_eq_getElem hcm]
  rw [List.getElem_take, List.getElem_drop] at hval
  simpa using hval

theorem getElem_mem_take_drop (l : List Move) (c k m : Nat) (hmk : m < k)
    (hcm : c + m < l.length) :
    l.getD (c + m) mvNULL ∈ (l.drop c).take k := by
  rw [List.mem_iff_getElem]
  refine ⟨m, ?_, ?_⟩
  · rw [List.length_take, List.length_drop]
    omega
  · rw [List.getElem_take, List.getElem_drop,
      List.getD_eq_getElem?_getD, List.getElem?_eq_getElem hcm]
    rfl

theorem perm_drop_of_perm_take_eq (l1 l2 : List Move) (c : Nat)
    (hp : l1.Perm l2) (ht : l1.take c = l2.take c) :
    (l1.drop c).Perm (l2.drop c) := by
  have h1 := List.take_append_drop c l1
  have h2 := List.take_append_drop c l2
  rw [← h1, ← h2, ht] at hp
  exact (List.perm_append_left_iff _).mp hp

theorem getD_set_self (l : List Move) (i : Nat) (v : Move) (hi : i < l.length) :
    (l.set i v).getD i mvNULL = v := by
  rw [List.getD_eq_getElem?_getD, List.getElem?_set]
  simp [hi]

theorem getD_set_ne (l : List Move) (i j : Nat) (v : Move) (hij : i ≠ j) :
    (l.set i v).getD j mvNULL = l.getD j mvNULL := by
  rw [List.getD_eq_getElem?_getD, List.getElem?_set, if_neg hij,
    List.getD_eq_getElem?_getD]

theorem msScan_spec (curr : Nat) :
    ∀ (n : Nat) (j : Nat) (nb : Move) (ms : List Move),
    ms.length - j = n → curr < j → curr < ms.length →
    nb = ms.getD curr mvNULL →
    (∀ x ∈ (ms.drop curr).take (j - curr), x.sort_score ≤ nb.sort_score) →
    ((msScan curr (List.range' j n) (nb, ms)).2.length = ms.length ∧
     (msScan curr (List.range' j n) (nb, ms)).2.take curr = ms.take curr ∧
     ((msScan curr (List.range' j n) (nb, ms)).2.drop curr).Perm (ms.drop curr) ∧
     (msScan curr (List.range' j n) (nb, ms)).1 =
       (msScan curr (List.range' j n) (nb, ms)).2.getD curr mvNULL ∧
     ∀ x ∈ (msScan curr (List.range' j n) (nb, ms)).2.drop curr,
       x.sort_score ≤ (msScan curr (List.range' j n) (nb, ms)).1.sort_score) := by
  intro n
  induction n with
  | zero =>
    intro j nb ms hlen hcj hcl hnb hpre
    refine ⟨rfl, rfl, List.Perm.refl _, hnb, ?_⟩
    intro x hx
    apply hpre
    have hall : (ms.drop curr).length ≤ j - curr := by
      rw [List.length_drop]; omega
    rw [List.take_of_length_le hall]
    exact hx
  | succ n ih =>
    intro j nb ms hlen hcj hcl hnb hpre
    have hjl : j < ms.length := by omega
    rw [List.range'_succ]
    simp only [msScan]
    by_cases hcmp : nb.sort_score < (ms.getD j mvNULL).sort_score
    · rw [if_pos hcmp]
      set mi := ms.getD j mvNULL with hmi
      set msp := (ms.set j (ms.getD curr mvNULL)).set curr mi with hmsp
      have hlenp : msp.length = ms.length := by
        rw [hmsp, List.length_set, List.length_set]
      have hnbp : mi = msp.getD curr mvNULL := by
        rw [hmsp, getD_set_self]
        rw [List.length_set]; exact hcl
      have hprep : ∀ x ∈ (msp.drop curr).take (j + 1 - curr),
          x.sort_score ≤ mi.sort_score := by
        intro x hx
        obtain ⟨m, hmk, hcm, hval⟩ :=
          mem_take_drop_getElem msp curr (j + 1 - curr) x hx
        rw [hlenp] at hcm
        rcases Nat.eq_zero_or_pos m with hm0 | hmpos
        · subst hm0
          rw [Nat.add_zero] at hval
          rw [← hval, ← hnbp]
        · by_cases hmj : curr + m = j
          · have : msp.getD (curr + m) mvNULL = ms.getD curr mvNULL := by
              rw [hmsp, getD_set_ne _ _ _ _ (by omega), hmj,
                getD_set_self _ _ _ hjl]
            rw [← hval, this, ← hnb]
            omega
          · have heq : msp.getD (curr + m) mvNULL = ms.getD (curr + m) mvNULL := by
              rw [hmsp, getD_set_ne _ _ _ _ (by omega),
                getD_set_ne _ _ _ _ (by omega)]
            have hmem : ms.getD (curr + m) mvNULL ∈ (ms.drop curr).take (j - curr) :=
              getElem_mem_take_drop ms curr (j - curr) m (by omega) hcm
            have := hpre _ hmem
            rw [← hval, heq]
            omega
      have ihr := ih (j + 1) mi msp (by omega) (by omega) (by omega) hnbp hprep
      obtain ⟨ih1, ih2, ih3, ih4, ih5⟩ := ihr
      have htakep : msp.take curr = ms.take curr := by
        rw [hmsp, take_set_of_le _ _ _ _ (le_refl curr),
          take_set_of_le _ _ _ _ (le_of_lt hcj)]
      have hpermp : msp.Perm ms := set_set_swap_perm ms curr j hcj hjl
      refine ⟨by rw [ih1, hlenp], by rw [ih2, htakep], ?_, ih4, ih5⟩
      exact (ih3).trans (perm_drop_of_perm_take_eq msp ms curr hpermp htakep)
    · rw [if_neg hcmp]
      have hprep : ∀ x ∈ (ms.drop curr).take (j + 1 - curr),
          x.sort_score ≤ nb.sort_score := by
        intro x hx
        obtain ⟨m, hmk, hcm, hval⟩ :=
          mem_take_drop_getElem ms curr (j + 1 - curr) x hx
        by_cases hmj : curr + m = j
        · rw [← hval, hmj]
          omega
        · have hmem : ms.getD (curr + m) mvNULL ∈ (ms.drop curr).take (j - curr) :=
            getElem_mem_take_drop ms curr (j - curr) m (by omega) hcm
          have := hpre _ hmem
          rw [← hval]
          omega
      exact ih (j + 1) nb ms (by omega) (by omega) hcl hnb hprep

theorem msNext_spec (ml : MoveListS) (h : ml.curr < ml.moves.length) :
    ∃ mv ml2, msNext ml = some (mv, ml2) ∧
      ml2.curr = ml.curr + 1 ∧
      ml2.moves.length = ml.moves.length ∧
      (ml2.moves.drop ml.curr).Perm (ml.moves.drop ml.curr) ∧
      mv = ml2.moves.getD ml.curr mvNULL ∧
      (∀ x ∈ ml2.moves.drop ml.curr, x.sort_score ≤ mv.sort_score) := by
  have hns : ¬ ml.curr ≥ ml.moves.length := by omega
  have hpre : ∀ x ∈ (ml.moves.drop ml.curr).take (ml.curr + 1 - ml.curr),
      x.sort_score ≤ (ml.moves.getD ml.curr mvNULL).sort_score := by
    intro x hx
    obtain ⟨m, hmk, hcm, hval⟩ :=
      mem_take_drop_getElem ml.moves ml.curr (ml.curr + 1 - ml.curr) x hx
    have hm0 : m = 0 := by omega
    subst hm0
    rw [Nat.add_zero] at hval
    rw [← hval]
  have hsp := msScan_spec ml.curr (ml.moves.length - (ml.curr + 1)) (ml.curr + 1)
    (ml.moves.getD ml.curr mvNULL) ml.moves rfl (by omega) h rfl hpre
  obtain ⟨h1, h2, h3, h4, h5⟩ := hsp
  refine ⟨(msScan ml.curr (List.range' (ml.curr + 1) (ml.moves.length - (ml.curr + 1)))
      (ml.moves.getD ml.curr mvNULL, ml.moves)).1,
    { moves := (msScan ml.curr
        (List.range' (ml.curr + 1) (ml.moves.length - (ml.curr + 1)))
        (ml.moves.getD ml.curr mvNULL, ml.moves)).2,
      curr := ml.curr + 1 }, ?_, rfl, h1, h3, h4, h5⟩
  unfold msNext
  rw [if_neg hns]

theorem msIterGo_spec : ∀ (fuel : Nat) (ml : MoveListS),
    ml.moves.length - ml.curr ≤ fuel →
    (msIterGo fuel ml).Perm (ml.moves.drop ml.curr) ∧
    (msIterGo fuel ml).Sorted (fun a b => b.sort_score ≤ a.sort_score) := by
  intro fuel
  induction fuel with
  | zero =>
    intro ml hf
    have hdrop : ml.moves.drop ml.curr = [] := by
      apply List.drop_eq_nil_of_le
      omega
    rw [msIterGo, hdrop]
    exact ⟨List.Perm.refl _, List.sorted_nil⟩
  | succ fuel ih =>
    intro ml hf
    by_cases h : ml.curr < ml.moves.length
    · obtain ⟨mv, ml2, hnext, hcurr, hlen, hperm, hval, hmax⟩ := msNext_spec ml h
      rw [msIterGo, hnext]
      have hcl2 : ml.curr < ml2.moves.length := by omega
      have hdrop2 : ml2.moves.drop ml.curr =
          ml2.moves[ml.curr] :: ml2.moves.drop (ml.curr + 1) :=
        List.drop_eq_getElem_cons hcl2
      have hvale : mv = ml2.moves[ml.curr] := by
        rw [hval, List.getD_eq_getElem?_getD, List.getElem?_eq_getElem hcl2]
        rfl
      have ih2 := ih ml2 (by omega)
      obtain ⟨ihp, ihs⟩ := ih2
      rw [hcurr] at ihp
      constructor
      · have : (mv :: msIterGo fuel ml2).Perm (ml2.moves.drop ml.curr) := by
          rw [hdrop2, ← hvale]
          exact ihp.cons mv
        exact this.trans hperm
      · rw [List.sorted_cons]
        refine ⟨?_, ihs⟩
        intro b hb
        have hb2 : b ∈ ml2.moves.drop (ml.curr + 1) := ihp.mem_iff.mp hb
        have hb3 : b ∈ ml2.moves.drop ml.curr := by
          rw [hdrop2]
          exact List.mem_cons_of_mem _ hb2
        exact hmax b hb3
    · have hnone : msNext ml = none := by
        unfold msNext
        rw [if_pos (by omega)]
      rw [msIterGo, hnone]
      have hdrop : ml.moves.drop ml.curr = [] := by
        apply List.drop_eq_nil_of_le
        omega
      rw [hdrop]
      exact ⟨List.Perm.refl _, List.sorted_nil⟩

/-- C8: iterating a MoveList holding any moves with any sort scores yields
exactly a permutation of the held multiset, in non-increasing sort_score
order (each step of the incremental selection sort swaps a remaining
maximum-score element to the cursor and yields it). -/
theorem c8_movelist_iteration_sorted_perm (moves : List Move) :
    (msIter { moves := moves, curr := 0 }).Perm moves ∧
    (msIter { moves := moves, curr := 0 }).Sorted
      (fun a b => b.sort_score ≤ a.sort_score) := by
  have h := msIterGo_spec (moves.length - 0) { moves := moves, curr := 0 }
    (le_refl _)
  rw [List.drop_zero] at h
  exact h

/-- Move branch of Engine::run (engine.rs): apply the found algebraic move,
or leave the position unchanged when none is found. -/
def move_command (zc : Nat → Nat) (p : Position) (mv_str : String) : Position :=
  match find_algebraic_move p mv_str with
  | some mv => make_move zc p mv
  | none => p

/-- Position of the C9 counterexample: white king e1 and knight e4, black
king a8 and rook e8; the knight is pinned, so moving it is pseudo-legal but
leaves the white king attacked. -/
def c9pos : Position :=
  { pieces := fun pc => match pc with
      | .king .white => 1 <<< 60
      | .knight .white => 1 <<< 36
      | .king .black => 1
      | .rook .black => 1 <<< 4
      | _ => 0,
    occupancy := fun c => match c with
      | .white => (1 <<< 60) ||| (1 <<< 36)
      | .black => 1 ||| (1 <<< 4),
    turn := .white, castling := 0, en_passant := none, halfmove := 0,
    ply := 0, hash := 0, last_irreversible := 0 }

/-- The pinned knight move e4d6 (e4 is index 36, d6 is index 19). -/
def c9mv : Move :=
  { fromSq := 36, toSq := 19, piece := .knight .white, kind := .quiet,
    sort_score := 0 }

/-- C9 counterexample: the move command with the string e4d6 finds the
pseudo-legal knight move, the move leaves the mover's own king attacked
(so it is illegal), and yet the engine position is changed, contradicting the
claim that such commands are silently ignored with no state change. -/
theorem c9_illegal_move_counterexample :
    find_algebraic_move c9pos "e4d6" = some c9mv ∧
    is_check (make_move zc0 c9pos c9mv) c9pos.turn = true ∧
    move_command zc0 c9pos "e4d6" ≠ c9pos := by
  refine ⟨by decide, by decide, ?_⟩
  have hocc : (move_command zc0 c9pos "e4d6").occupancy .white ≠
      c9pos.occupancy .white := by decide
  intro h
  exact hocc (congrArg (fun q => q.occupancy .white) h)

/-- C9 as amended: a move command whose string matches the display form of
none of the generated pseudo-legal moves is silently ignored and leaves the
position unchanged; a command matching a generated pseudo-legal move applies
it via make_move, with no legality check (even when the move leaves the
mover's own king attacked). -/
theorem c9_move_command_amended (zc : Nat → Nat) (p : Position) (s : String) :
    (find_algebraic_move p s = none → move_command zc p s = p) ∧
    (∀ mv, find_algebraic_move p s = some mv →
      move_command zc p s = make_move zc p mv) ∧
    (find_algebraic_move p s = none ↔ ∀ mv ∈ gen_moves p, moveStr mv ≠ s) := by
  refine ⟨?_, ?_, ?_⟩
  · intro h
    unfold move_command
    rw [h]
  · intro mv h
    unfold move_command
    rw [h]
  · unfold find_algebraic_move
    rw [List.find?_eq_none]
    have hperm := (msIterGo_spec ((gen_moves p).length - 0)
      { moves := gen_moves p, curr := 0 } (le_refl _)).1
    rw [List.drop_zero] at hperm
    constructor
    · intro h mv hm
      have hmem : mv ∈ msIter { moves := gen_moves p, curr := 0 } :=
        hperm.mem_iff.mpr hm
      have := h mv hmem
      simpa using this
    · intro h mv hm
      have hmem : mv ∈ gen_moves p := hperm.mem_iff.mp hm
      simpa using h mv hmem

/-- Witness for C9 as amended: a nonsense move string leaves the starting
position unchanged, and the counterexample string applies the found move. -/
theorem c9_move_command_amended_witness :
    move_command zc0 (startpos zc0) "e9e9" = startpos zc0 ∧
    move_command zc0 c9pos "e4d6" = make_move zc0 c9pos c9mv :=
  ⟨(c9_move_command_amended zc0 (startpos zc0) "e9e9").1 (by decide),
   (c9_move_command_amended zc0 c9pos "e4d6").2.1 c9mv (by decide)⟩

/-- Helper: make_move ignores the sort_score field of the move. -/
theorem make_move_sort_score_irrel (zc : Nat → Nat) (p : Position) (mv : Move)
    (s : Nat) :
    make_move zc p { mv with sort_score := s } = make_move zc p mv := rfl

theorem negamax_loop_all_illegal
    (recNega : Position → Int → Int → Nat → Nat → Nat → SearchInfo →
      Int × SearchInfo)
    (zc : Nat → Nat) (pos : Position) (beta : Int)
    (depth ply pv_idx next_pv_idx : Nat) (l : List Move) (alpha : Int)
    (info : SearchInfo)
    (hall : ∀ mv ∈ l, is_check (make_move zc pos mv) pos.turn = true) :
    negamax_loop recNega zc pos beta depth ply pv_idx next_pv_idx l alpha 0
      info =
      (if is_check pos pos.turn then (-CHECKMATE + (ply : Int), info)
        else (STALEMATE, info)) := by
  induction l with
  | nil =>
    rw [negamax_loop]
    simp only [beq_self_eq_true, if_true]
  | cons mv rest ih =>
    rw [negamax_loop]
    rw [hall mv (List.mem_cons_self mv rest), if_pos rfl]
    exact ih (fun m hm => hall m (List.mem_cons_of_mem mv hm))

/-- C5: a negamax call with positive depth that is not cut short by the stop
poll or the draw tests and whose generated pseudo-legal moves all leave the
moving side's king attacked (zero legal moves) returns -CHECKMATE + ply when
the side to move is in check and STALEMATE (0) otherwise. -/
theorem c5_mate_stalemate_scores (env : SearchEnv) (fuel : Nat)
    (pos : Position) (alpha beta : Int) (depth ply pv_idx : Nat)
    (info : SearchInfo)
    (hpoll : (pollStop info).1 = false)
    (hhm : pos.halfmove < HALFMOVE_DRAW_COUNT)
    (hrep : detect_repetition pos info.history (decide (ply < 2)) = false)
    (hdepth : depth ≠ 0)
    (hall : ∀ mv ∈ gen_moves pos,
      is_check (make_move env.zc pos mv) pos.turn = true) :
    (negamax env (fuel + 1) pos alpha beta depth ply pv_idx info).1 =
      if is_check pos pos.turn then -CHECKMATE + (ply : Int) else STALEMATE := by
  rw [negamax]
  simp only [hpoll, Bool.false_eq_true, if_false]
  set info2 := (if ply > (pollStop info).2.seldepth
      then { (pollStop info).2 with seldepth := ply }
      else (pollStop info).2) with hinfo2
  have hhist : info2.history = info.history := by
    rw [hinfo2]
    split <;> exact pollStop_history info
  have hcond : (decide (pos.halfmove ≥ HALFMOVE_DRAW_COUNT) ||
      detect_repetition pos info2.history (decide (ply < 2))) = false := by
    rw [hhist, hrep]
    simp only [Bool.or_false, decide_eq_false_iff_not]
    omega
  rw [hcond]
  simp only [Bool.false_eq_true, if_false]
  have hd0 : (depth == 0) = false := by simpa using hdepth
  rw [hd0]
  simp only [Bool.false_eq_true, if_false]
  have hall2 : ∀ mv ∈ msIter
      { moves := score_moves (gen_moves pos) ply info2, curr := 0 },
      is_check (make_move env.zc pos mv) pos.turn = true := by
    intro mv hmv
    have hperm := (msIterGo_spec ((score_moves (gen_moves pos) ply info2).length - 0)
      { moves := score_moves (gen_moves pos) ply info2, curr := 0 } (le_refl _)).1
    rw [List.drop_zero] at hperm
    have hmem : mv ∈ score_moves (gen_moves pos) ply info2 :=
      hperm.mem_iff.mp hmv
    unfold score_moves at hmem
    rw [List.mem_map] at hmem
    obtain ⟨mv0, hmv0, heq⟩ := hmem
    rw [← heq]
    have := hall mv0 hmv0
    simpa [make_move_sort_score_irrel] using this
  rw [negamax_loop_all_illegal _ _ _ _ _ _ _ _ _ _ _ hall2]
  split <;> rfl

/-- Stalemate position for the C5 witness: black to move with only its king
on a8, against a white queen on c7 and king on h1. -/
def c5pos : Position :=
  { pieces := fun pc => match pc with
      | .king .black => 1
      | .queen .white => 1 <<< 10
      | .king .white => 1 <<< 63
      | _ => 0,
    occupancy := fun c => match c with
      | .white => (1 <<< 10) ||| (1 <<< 63)
      | .black => 1,
    turn := .black, castling := 0, en_passant := none, halfmove := 0,
    ply := 0, hash := 0, last_irreversible := 0 }

/-- Witness for C5: in the concrete stalemate position every generated move
is illegal and the frame returns the draw score. -/
theorem c5_mate_stalemate_scores_witness :
    (negamax cenv 1 c5pos (-I32_MAX) I32_MAX 1 3 0
      (searchInfoNew 100 [] [])).1 = STALEMATE := by
  have h := c5_mate_stalemate_scores cenv 0 c5pos (-I32_MAX) I32_MAX 1 3 0
    (searchInfoNew 100 [] []) (by decide) (by decide) (by decide) (by decide)
    (by decide)
  rw [h]
  decide

/-- Position of the C6 counterexample: white king h1 and pawn a4 against a
black king a8, white to move. -/
def c6pos : Position :=
  { pieces := fun pc => match pc with
      | .king .white => 1 <<< 63
      | .pawn .white => 1 <<< 32
      | .king .black => 1
      | _ => 0,
    occupancy := fun c => match c with
      | .white => (1 <<< 32) ||| (1 <<< 63)
      | .black => 1,
    turn := .white, castling := 0, en_passant := none, halfmove := 0,
    ply := 0, hash := 0, last_irreversible := 0 }

/-- Environment of the C6 counterexample: the evaluator scores the position
after a4a5 (recognised by its white occupancy) as -37 and everything else
0. -/
def cenv6 : SearchEnv :=
  { ev := fun pos =>
      if pos.occupancy .white = ((1 <<< 24) ||| (1 <<< 63)) then -37 else 0,
    value := fun _ => 0, zc := zc0 }

/-- Search state of the C6 counterexample: iteration depth 2, node counter
at 9999 so the poll at the second child fires, one pending stop command. -/
def c6info : SearchInfo :=
  { depth := 2, seldepth := 0, score := 0, nodes := 9999, stop_nodes := 100000,
    triangular_pv := List.replicate PV_SIZE none,
    current_branch := List.replicate MAX_DEPTH none,
    history := List.replicate MAX_GAME_PLY 0,
    rxq := [true], sent := [], stop := false }

/-- C6 counterexample: in this frame (depth 1, ply 1, alpha -50, beta 50)
the first child raises alpha to 37 and updates the PV, the second child
detects the stop; the frame then returns min(|alpha|, UNRAVEL) = 37, an
ordinary score not above CHECKMATE, with the stop flag set, contradicting
the claim that every frame on the path back to the root returns a sentinel
greater than CHECKMATE without updating the PV. -/
theorem c6_stop_sentinel_counterexample :
    c6info.stop = false ∧
    (negamax cenv6 5 c6pos (-50) 50 1 1 64 c6info).2.stop = true ∧
    (negamax cenv6 5 c6pos (-50) 50 1 1 64 c6info).1 = 37 ∧
    (negamax cenv6 5 c6pos (-50) 50 1 1 64 c6info).1 ≤ CHECKMATE ∧
    (negamax cenv6 5 c6pos (-50) 50 1 1 64 c6info).2.triangular_pv ≠
      c6info.triangular_pv := by
  refine ⟨rfl, by decide, by decide, by decide, by decide⟩

/-- Helper: the stop poll never changes the PV. -/
theorem pollStop_pv (info : SearchInfo) :
    (pollStop info).2.triangular_pv = info.triangular_pv := by
  unfold pollStop
  repeat' (first | split | dsimp only)
  all_goals rfl

/-- State passed to the recursive call for a legal move inside the negamax
move loop: record the current branch and history, and at the root send the
currmove message. -/
def nlChildInfo (pos : Position) (mv : Move) (ply : Nat) (legal_moves : Nat)
    (info : SearchInfo) : SearchInfo :=
  let info := { info with
    current_branch := info.current_branch.set ply (some mv) }
  let info := { info with history := info.history.set pos.ply pos.hash }
  let legal_moves := legal_moves + 1
  if ply == 0 then
    { info with sent := info.sent ++ [.currmove info.depth mv legal_moves] }
  else info

/-- Helper: the stop poll never changes the iteration depth field. -/
theorem pollStop_depth (info : SearchInfo) :
    (pollStop info).2.depth = info.depth := by
  unfold pollStop
  repeat' (first | split | dsimp only)
  all_goals rfl

theorem qs_loop_depth
    (recQs : Position → Int → Int → Nat → SearchInfo → Int × SearchInfo)
    (hrec : ∀ pos a b p i, (recQs pos a b p i).2.depth = i.depth)
    (env : SearchEnv) (pos : Position) (beta : Int) (ply : Nat)
    (standing_pat : Int) :
    ∀ (l : List Move) (alpha : Int) (info : SearchInfo),
    (qs_loop recQs env pos beta ply standing_pat l alpha info).2.depth =
      info.depth := by
  intro l
  induction l with
  | nil => intro alpha info; rfl
  | cons c rest ih =>
    intro alpha info
    rw [qs_loop]
    repeat' (first | split | dsimp only)
    all_goals simp [ih, hrec]

theorem quiescence_depth (env : SearchEnv) :
    ∀ (fuel : Nat) (pos : Position) (alpha beta : Int) (ply : Nat)
      (info : SearchInfo),
    (quiescence_search env fuel pos alpha beta ply info).2.depth =
      info.depth := by
  intro fuel
  induction fuel with
  | zero => intro pos alpha beta ply info; rfl
  | succ fuel ih =>
    intro pos alpha beta ply info
    rw [quiescence_search]
    repeat' (first | split | dsimp only)
    all_goals simp [qs_loop_depth (quiescence_search env fuel)
      (fun p a b q i => ih p a b q i), pollStop_depth]

theorem negamax_loop_depth
    (recNega : Position → Int → Int → Nat → Nat → Nat → SearchInfo →
      Int × SearchInfo)
    (hrec : ∀ pos a b d p v i, (recNega pos a b d p v i).2.depth = i.depth)
    (zc : Nat → Nat) (pos : Position) (beta : Int)
    (depth ply pv_idx next_pv_idx : Nat) :
    ∀ (l : List Move) (alpha : Int) (legal_moves : Nat) (info : SearchInfo),
    (negamax_loop recNega zc pos beta depth ply pv_idx next_pv_idx l alpha
      legal_moves info).2.depth = info.depth := by
  intro l
  induction l with
  | nil =>
    intro alpha legal_moves info
    rw [negamax_loop]
    repeat' split
    all_goals rfl
  | cons c rest ih =>
    intro alpha legal_moves info
    rw [negamax_loop]
    repeat' (first | split | dsimp only)
    all_goals simp [ih, hrec, hoist_pv]

theorem negamax_depth (env : SearchEnv) :
    ∀ (fuel : Nat) (pos : Position) (alpha beta : Int)
      (depth ply pv_idx : Nat) (info : SearchInfo),
    (negamax env fuel pos alpha beta depth ply pv_idx info).2.depth =
      info.depth := by
  intro fuel
  induction fuel with
  | zero => intro pos alpha beta depth ply pv_idx info; rfl
  | succ fuel ih =>
    intro pos alpha beta depth ply pv_idx info
    rw [negamax]
    repeat' (first | split | dsimp only)
    all_goals
      simp [negamax_loop_depth (negamax env fuel)
        (fun p a b d q v i => ih p a b d q v i), pollStop_depth,
        quiescence_depth]

/-- C6 as amended: the frame whose entry poll receives the stop command
returns the UNRAVEL sentinel with the stop flag set and the PV unchanged;
an ancestor frame whose child leaves the stop flag set returns
min(|alpha|, UNRAVEL), which exceeds CHECKMATE only while alpha is still at
an extreme value; and one iterative-deepening iteration emits the Full info
message for its depth exactly when the root negamax score is below
UNRAVEL. -/
theorem c6_stop_propagation_amended :
    (∀ (env : SearchEnv) (fuel : Nat) (pos : Position) (alpha beta : Int)
        (depth ply pv_idx : Nat) (info : SearchInfo),
      (pollStop info).1 = true →
      (negamax env (fuel + 1) pos alpha beta depth ply pv_idx info).1 = UNRAVEL ∧
      (negamax env (fuel + 1) pos alpha beta depth ply pv_idx info).2.stop = true ∧
      (negamax env (fuel + 1) pos alpha beta depth ply pv_idx
        info).2.triangular_pv = info.triangular_pv) ∧
    (∀ (recNega : Position → Int → Int → Nat → Nat → Nat → SearchInfo →
        Int × SearchInfo)
        (zc : Nat → Nat) (pos : Position) (beta : Int)
        (depth ply pv_idx next_pv_idx : Nat) (mv : Move) (rest : List Move)
        (alpha : Int) (legal_moves : Nat) (info : SearchInfo),
      is_check (make_move zc pos mv) pos.turn = false →
      (recNega (make_move zc pos mv) (-beta) (-alpha) (depth - 1) (ply + 1)
        next_pv_idx (nlChildInfo pos mv ply legal_moves info)).2.stop = true →
      negamax_loop recNega zc pos beta depth ply pv_idx next_pv_idx
        (mv :: rest) alpha legal_moves info =
        (min |alpha| UNRAVEL,
         (recNega (make_move zc pos mv) (-beta) (-alpha) (depth - 1) (ply + 1)
           next_pv_idx (nlChildInfo pos mv ply legal_moves info)).2)) ∧
    (∀ (env : SearchEnv) (fuel : Nat) (pos : Position) (d : Nat)
        (info : SearchInfo),
      ((negamax env fuel pos (-I32_MAX) I32_MAX d 0 0
          { info with depth := d, nodes := 0 }).1 < UNRAVEL →
        (id_body env fuel pos d info).sent =
          (negamax env fuel pos (-I32_MAX) I32_MAX d 0 0
            { info with depth := d, nodes := 0 }).2.sent ++
          [.full d
            (negamax env fuel pos (-I32_MAX) I32_MAX d 0 0
              { info with depth := d, nodes := 0 }).2.seldepth
            (negamax env fuel pos (-I32_MAX) I32_MAX d 0 0
              { info with depth := d, nodes := 0 }).1
            (negamax env fuel pos (-I32_MAX) I32_MAX d 0 0
              { info with depth := d, nodes := 0 }).2.nodes
            ((negamax env fuel pos (-I32_MAX) I32_MAX d 0 0
              { info with depth := d, nodes := 0 }).2.triangular_pv.take
                MAX_DEPTH)]) ∧
      (UNRAVEL ≤ (negamax env fuel pos (-I32_MAX) I32_MAX d 0 0
          { info with depth := d, nodes := 0 }).1 →
        (id_body env fuel pos d info).sent =
          (negamax env fuel pos (-I32_MAX) I32_MAX d 0 0
            { info with depth := d, nodes := 0 }).2.sent)) := by
  refine ⟨?_, ?_, ?_⟩
  · intro env fuel pos alpha beta depth ply pv_idx info hpoll
    rw [negamax, hpoll, if_pos rfl]
    exact ⟨rfl, rfl, pollStop_pv info⟩
  · intro recNega zc pos beta depth ply pv_idx next_pv_idx mv rest alpha
      legal_moves info hlegal hstop
    rw [negamax_loop, hlegal]
    simp only [Bool.false_eq_true, if_false]
    unfold nlChildInfo at hstop ⊢
    dsimp only at hstop ⊢
    rw [if_pos (by rw [hstop]; simp)]
  · intro env fuel pos d info
    have hd : (negamax env fuel pos (-I32_MAX) I32_MAX d 0 0
        { info with depth := d, nodes := 0 }).2.depth = d := by
      rw [negamax_depth]
    constructor
    · intro h
      unfold id_body
      dsimp only
      rw [if_pos h]
      unfold send_full
      dsimp only
      rw [hd]
    · intro h
      unfold id_body
      dsimp only
      rw [if_neg (by omega)]

def c6winfoA : SearchInfo := { searchInfoNew 100 [] [true] with depth := 2 }

def c6rec : Position → Int → Int → Nat → Nat → Nat → SearchInfo →
    Int × SearchInfo := fun _ _ _ _ _ _ i => (0, { i with stop := true })

def c6mvA : Move :=
  { fromSq := 32, toSq := 24, piece := .pawn .white, kind := .quiet,
    sort_score := 0 }

def c6winfoB : SearchInfo := searchInfoNew 100 [] []

/-- Witness for C6 as amended: a frame with a pending stop at its entry
poll returns UNRAVEL with an unchanged PV; a loop whose child reports stop
returns min(|alpha|, UNRAVEL); and a completed depth-1 iteration emits its
Full message. -/
theorem c6_stop_propagation_amended_witness :
    ((negamax cenv (0 + 1) c5pos (-1) 1 1 0 0 c6winfoA).1 = UNRAVEL ∧
     (negamax cenv (0 + 1) c5pos (-1) 1 1 0 0 c6winfoA).2.stop = true ∧
     (negamax cenv (0 + 1) c5pos (-1) 1 1 0 0 c6winfoA).2.triangular_pv =
       c6winfoA.triangular_pv) ∧
    negamax_loop c6rec zc0 c6pos 50 1 1 64 127 [c6mvA] (-50) 0 c6winfoB =
      (min |(-50 : Int)| UNRAVEL,
       (c6rec (make_move zc0 c6pos c6mvA) (-(50 : Int)) (-(-50 : Int)) (1 - 1)
         (1 + 1) 127 (nlChildInfo c6pos c6mvA 1 0 c6winfoB)).2) ∧
    (∃ m, (id_body cenv 1 c5pos 1 c6winfoB).sent =
      (negamax cenv 1 c5pos (-I32_MAX) I32_MAX 1 0 0
        { c6winfoB with depth := 1, nodes := 0 }).2.sent ++ [m]) :=
  ⟨c6_stop_propagation_amended.1 cenv 0 c5pos (-1) 1 1 0 0 c6winfoA (by decide),
   c6_stop_propagation_amended.2.1 c6rec zc0 c6pos 50 1 1 64 127 c6mvA [] (-50) 0
     c6winfoB (by decide) (by decide),
   ⟨_, (c6_stop_propagation_amended.2.2 cenv 1 c5pos 1 c6winfoB).1 (by decide)⟩⟩

/-- Ray of one direction of bishop_attacks_mask (magic.rs): like the attack
ray but stopping before any square on the board edge. -/
def bishopMaskRayGo (d : Int) (prev_rank : Int) (cur : Option (Fin 64)) :
    Nat → List (Fin 64)
  | 0 => []
  | fuel + 1 =>
    match cur with
    | none => []
    | some sq =>
      if rankOf sq - prev_rank ≠ Int.sign d then []
      else if rankOf sq = 0 ∨ rankOf sq = 7 ∨ fileOf sq = 0 ∨ fileOf sq = 7 then []
      else sq :: bishopMaskRayGo d (rankOf sq) (sqAdd sq d) fuel

/-- Squares of one bishop mask ray. -/
def bishopMaskRay (s : Fin 64) (d : Int) : List (Fin 64) :=
  bishopMaskRayGo d (rankOf s) (sqAdd s d) 8

/-- Ray of one direction of rook_attacks_mask (magic.rs): stopping before the
edge square of the direction travelled. -/
def rookMaskRayGo (s : Fin 64) (d : Int) (cur : Option (Fin 64)) :
    Nat → List (Fin 64)
  | 0 => []
  | fuel + 1 =>
    match cur with
    | none => []
    | some sq =>
      if rankOf s ≠ rankOf sq ∧ fileOf s ≠ fileOf sq then []
      else if ((d = 8 ∨ d = -8) ∧ (rankOf sq = 0 ∨ rankOf sq = 7)) ∨
          ((d = 1 ∨ d = -1) ∧ (fileOf sq = 0 ∨ fileOf sq = 7)) then []
      else sq :: rookMaskRayGo s d (sqAdd sq d) fuel

/-- Squares of one rook mask ray. -/
def rookMaskRay (s : Fin 64) (d : Int) : List (Fin 64) :=
  rookMaskRayGo s d (sqAdd s d) 8

/-- Bitboard of a list of squares. -/
def bbOfList (l : List (Fin 64)) : Nat := l.foldl bbSet 0

/-- bishop_attacks_mask from magic.rs. -/
def bishop_attacks_mask (s : Fin 64) : Nat :=
  bbOfList (bishopMaskRay s 9) ||| bbOfList (bishopMaskRay s 7) |||
  bbOfList (bishopMaskRay s (-9)) ||| bbOfList (bishopMaskRay s (-7))

/-- rook_attacks_mask from magic.rs. -/
def rook_attacks_mask (s : Fin 64) : Nat :=
  bbOfList (rookMaskRay s 1) ||| bbOfList (rookMaskRay s (-1)) |||
  bbOfList (rookMaskRay s 8) ||| bbOfList (rookMaskRay s (-8))

/-- gen_occupancy from magic.rs: the subset of the mask selected by the bits
of the index, bit n of the index selecting the n-th set square of the mask
in iteration order. -/
def gen_occupancy (index : Nat) (mask : Nat) : Nat :=
  (bbList mask).enum.foldl
    (fun occ p => if index &&& (1 <<< p.1) ≠ 0 then bbSet occ p.2 else occ) 0

/-- XorShift::gen_next from magic.rs. -/
def xorshift_next (x : Nat) : Nat :=
  let x := x ^^^ shl64 x 13
  let x := x ^^^ (x >>> 7)
  let x := x ^^^ shl64 x 17
  x

/-- XorShift::gen_magic: three draws ANDed together, biasing toward sparse
multipliers; returns the magic and the new generator state. -/
def gen_magic (st : Nat) : Nat × Nat :=
  let n1 := xorshift_next st
  let n2 := xorshift_next n1
  let n3 := xorshift_next n2
  (n1 &&& n2 &&& n3, n3)

/-- ROOK_BITS from magic.rs. -/
def ROOK_BITS : List Nat :=
  [12, 11, 11, 11, 11, 11, 11, 12,
   11, 10, 10, 10, 10, 10, 10, 11,
   11, 10, 10, 10, 10, 10, 10, 11,
   11, 10, 10, 10, 10, 10, 10, 11,
   11, 10, 10, 10, 10, 10, 10, 11,
   11, 10, 10, 10, 10, 10, 10, 11,
   11, 10, 10, 10, 10, 10, 10, 11,
   12, 11, 11, 11, 11, 11, 11, 12]

/-- BISHOP_BITS from magic.rs. -/
def BISHOP_BITS : List Nat :=
  [6, 5, 5, 5, 5, 5, 5, 6,
   5, 5, 5, 5, 5, 5, 5, 5,
   5, 5, 7, 7, 7, 7, 5, 5,
   5, 5, 7, 9, 9, 7, 5, 5,
   5, 5, 7, 9, 9, 7, 5, 5,
   5, 5, 7, 7, 7, 7, 5, 5,
   5, 5, 5, 5, 5, 5, 5, 5,
   6, 5, 5, 5, 5, 5, 5, 6]

/-- Bits of the rook table index for a square. -/
def rookBits (sq : Fin 64) : Nat := ROOK_BITS.getD sq.val 0

/-- Bits of the bishop table index for a square. -/
def bishopBits (sq : Fin 64) : Nat := BISHOP_BITS.getD sq.val 0

/-- Magic index of an occupancy subset: wrapping multiply then shift by
64 minus the per-square bit count. -/
def magicIdx (subset magic bits : Nat) : Nat :=
  ((subset * magic) % 2 ^ 64) >>> (64 - bits)

/-- An attack table ([Bitboard; N] in the source) is encoded as a single
natural number holding one 64-bit word per slot; word i of the freshly
zeroed array (and of the encoding 0) is 0, matching Bitboard(0). -/
def wordGet (t i : Nat) : Nat := t / 2 ^ (64 * i) % 2 ^ 64

/-- Overwrite word i of an encoded attack table. -/
def wordSet (t i v : Nat) : Nat :=
  t - wordGet t i * 2 ^ (64 * i) + v * 2 ^ (64 * i)

/-- Force a number to a literal before passing it on: semantically the
identity (strictN_eq below), this mirrors the strict evaluation of the
source's mutable state, keeping each loop iteration's state fully computed. -/
def strictN (n : Nat) (f : Nat → α) : α :=
  match n with
  | 0 => f 0
  | m + 1 => f (m + 1)

theorem strictN_eq (n : Nat) (f : Nat → α) : strictN n f = f n := by
  cases n <;> rfl

/-- Insertion loop of the magic search: write each subset's reference attack
set at its magic index, failing on any write into a non-empty slot. -/
def magicInsert (occs refs : Nat → Nat) (magic bits : Nat) :
    Nat → Nat → Nat → Option Nat
  | _, 0, table => some table
  | i, remaining + 1, table =>
    let idx := magicIdx (occs i) magic bits
    if wordGet table idx ≠ 0 then none
    else strictN (wordSet table idx (refs i)) (fun t2 =>
      magicInsert occs refs magic bits (i + 1) remaining t2)

/-- Candidate loop of the magic search: draw a sparse candidate, apply the
top-byte rejection shortcut, and try to build a collision-free table;
restart on failure, bounded by fuel. -/
def find_magic_go (mask : Nat) (occs refs : Nat → Nat)
    (bits n_comb : Nat) : Nat → Nat → Option (Nat × Nat)
  | 0, _ => none
  | fuel + 1, st =>
    let mg := gen_magic st
    let magic := mg.1
    let st2 := mg.2
    let mul := (mask * magic) % 2 ^ 64
    if count_bits (mul &&& 0xFF00000000000000) < 6 then
      strictN st2 (fun s2 => find_magic_go mask occs refs bits n_comb fuel s2)
    else
      match magicInsert occs refs magic bits 0 n_comb 0 with
      | some table => some (table, magic)
      | none => strictN st2 (fun s2 => find_magic_go mask occs refs bits n_comb fuel s2)

/-- find_magic_number_rook from magic.rs, with fuel bounding the candidate
search; returns the encoded attack table and the magic number. -/
def find_magic_number_rook (sq : Fin 64) (seed : Nat) (fuel : Nat) :
    Option (Nat × Nat) :=
  let mask := rook_attacks_mask sq
  find_magic_go mask (fun i => gen_occupancy i mask)
    (fun i => rook_attacks sq (gen_occupancy i mask))
    (rookBits sq) (2 ^ count_bits mask) fuel seed

/-- find_magic_number_bishop from magic.rs. -/
def find_magic_number_bishop (sq : Fin 64) (seed : Nat) (fuel : Nat) :
    Option (Nat × Nat) :=
  let mask := bishop_attacks_mask sq
  find_magic_go mask (fun i => gen_occupancy i mask)
    (fun i => bishop_attacks sq (gen_occupancy i mask))
    (bishopBits sq) (2 ^ count_bits mask) fuel seed

/-- SEED from magic.rs. -/
def MAGIC_SEED : Nat := 18401105770426537108

theorem word_decomp (t i : Nat) :
    t = t % 2 ^ (64 * i) +
      (wordGet t i + 2 ^ 64 * (t / (2 ^ (64 * i) * 2 ^ 64))) * 2 ^ (64 * i) := by
  unfold wordGet
  rw [← Nat.div_div_eq_div_mul]
  have h1 := Nat.div_add_mod t (2 ^ (64 * i))
  have h2 := Nat.div_add_mod (t / 2 ^ (64 * i)) (2 ^ 64)
  conv_lhs => rw [← h1, ← h2]
  ring

theorem sub_formula (a G H v P Q : Nat) :
    (a + (G + Q * H) * P) - G * P + v * P = a + (v + Q * H) * P := by
  have h1 : a + (G + Q * H) * P = (a + Q * H * P) + G * P := by ring
  rw [h1, Nat.add_sub_cancel]
  ring

theorem wordSet_decomp (t i v : Nat) :
    wordSet t i v = t % 2 ^ (64 * i) +
      (v + 2 ^ 64 * (t / (2 ^ (64 * i) * 2 ^ 64))) * 2 ^ (64 * i) := by
  unfold wordSet
  nth_rewrite 1 [word_decomp t i]
  exact sub_formula _ _ _ _ _ _

theorem wordGet_lt (t i : Nat) : wordGet t i < 2 ^ 64 :=
  Nat.mod_lt _ (by norm_num)

theorem wordGet_set_self (t i v : Nat) (hv : v < 2 ^ 64) :
    wordGet (wordSet t i v) i = v := by
  rw [wordSet_decomp]
  unfold wordGet
  rw [show (v + 2 ^ 64 * (t / (2 ^ (64 * i) * 2 ^ 64))) * 2 ^ (64 * i)
      = 2 ^ (64 * i) * (v + 2 ^ 64 * (t / (2 ^ (64 * i) * 2 ^ 64))) from by ring,
    Nat.add_mul_div_left _ _ (pow_pos (by norm_num) _),
    Nat.div_eq_of_lt (Nat.mod_lt _ (pow_pos (by norm_num) _)),
    Nat.zero_add, Nat.add_mul_mod_self_left, Nat.mod_eq_of_lt hv]

theorem wordGet_add_mul (a Y i j : Nat) (ha : a < 2 ^ (64 * i)) (hne : j ≠ i) :
    wordGet (a + Y * 2 ^ (64 * i)) j =
      if j < i then wordGet a j else wordGet (Y / 2 ^ 64) (j - i - 1) := by
  unfold wordGet
  by_cases hj : j < i
  · rw [if_pos hj]
    have e1 : (2:Nat) ^ (64 * i) = 2 ^ (64 * j) * (2 ^ 64 * 2 ^ (64 * (i - j - 1))) := by
      rw [← pow_add, ← pow_add]
      congr 1
      omega
    rw [e1, show a + Y * (2 ^ (64 * j) * (2 ^ 64 * 2 ^ (64 * (i - j - 1))))
        = a + 2 ^ (64 * j) * (Y * (2 ^ 64 * 2 ^ (64 * (i - j - 1)))) from by ring,
      Nat.add_mul_div_left _ _ (pow_pos (by norm_num) _),
      show Y * (2 ^ 64 * 2 ^ (64 * (i - j - 1))) = 2 ^ 64 * (Y * 2 ^ (64 * (i - j - 1))) from by ring,
      Nat.add_mul_mod_self_left]
  · rw [if_neg hj]
    have e1 : (2:Nat) ^ (64 * j) = 2 ^ (64 * i) * 2 ^ 64 * 2 ^ (64 * (j - i - 1)) := by
      rw [← pow_add, ← pow_add]
      congr 1
      omega
    rw [e1, ← Nat.div_div_eq_div_mul, ← Nat.div_div_eq_div_mul,
      show (a + Y * 2 ^ (64 * i)) / 2 ^ (64 * i) = Y from by
        rw [Nat.add_mul_div_right _ _ (pow_pos (by norm_num) _), Nat.div_eq_of_lt ha,
          Nat.zero_add]]

theorem wordGet_set_ne (t i j v : Nat) (hv : v < 2 ^ 64) (hne : j ≠ i) :
    wordGet (wordSet t i v) j = wordGet t j := by
  have ha : t % 2 ^ (64 * i) < 2 ^ (64 * i) := Nat.mod_lt _ (pow_pos (by norm_num) _)
  rw [wordSet_decomp, wordGet_add_mul _ _ _ _ ha hne]
  conv_rhs => rw [word_decomp t i]
  rw [wordGet_add_mul _ _ _ _ ha hne]
  by_cases hj : j < i
  · rw [if_pos hj, if_pos hj]
  · rw [if_neg hj, if_neg hj]
    congr 1
    rw [Nat.add_mul_div_left _ _ (by norm_num : (0:Nat) < 2 ^ 64),
      Nat.add_mul_div_left _ _ (by norm_num : (0:Nat) < 2 ^ 64),
      Nat.div_eq_of_lt hv, Nat.div_eq_of_lt (wordGet_lt t i)]

theorem magicInsert_sound (occs refs : Nat → Nat) (magic bits : Nat)
    (hrefs : ∀ j, refs j < 2 ^ 64) :
    ∀ (rem i t t' : Nat), magicInsert occs refs magic bits i rem t = some t' →
      (∀ k, wordGet t k ≠ 0 → wordGet t' k = wordGet t k) ∧
      (∀ j, i ≤ j → j < i + rem → refs j ≠ 0 →
        wordGet t' (magicIdx (occs j) magic bits) = refs j) := by
  intro rem
  induction rem with
  | zero =>
    intro i t t' h
    simp only [magicInsert] at h
    cases h
    exact ⟨fun k _ => rfl, fun j hj1 hj2 _ => absurd hj2 (by omega)⟩
  | succ rem ih =>
    intro i t t' h
    simp only [magicInsert, strictN_eq] at h
    split at h
    · exact absurd h (by simp)
    · next hz0 =>
      have hz : wordGet t (magicIdx (occs i) magic bits) = 0 := by
        by_contra hne
        exact hz0 hne
      obtain ⟨ha, hb⟩ := ih (i + 1) (wordSet t (magicIdx (occs i) magic bits) (refs i)) t' h
      constructor
      · intro k hk
        have hkne : k ≠ magicIdx (occs i) magic bits := fun e => hk (by rw [e, hz])
        rw [ha k (by rw [wordGet_set_ne _ _ _ _ (hrefs i) hkne]; exact hk),
          wordGet_set_ne _ _ _ _ (hrefs i) hkne]
      · intro j hj1 hj2 hrj
        rcases Nat.lt_or_ge i j with hlt | hge
        · exact hb j (by omega) (by omega) hrj
        · have hji : j = i := by omega
          subst hji
          rw [ha _ (by rw [wordGet_set_self _ _ _ (hrefs j)]; exact hrj),
            wordGet_set_self _ _ _ (hrefs j)]

theorem find_magic_go_sound (mask : Nat) (occs refs : Nat → Nat)
    (bits n_comb : Nat) :
    ∀ (fuel st table magic : Nat),
      find_magic_go mask occs refs bits n_comb fuel st = some (table, magic) →
      magicInsert occs refs magic bits 0 n_comb 0 = some table := by
  intro fuel
  induction fuel with
  | zero =>
    intro st table magic h
    exact absurd h (by simp [find_magic_go])
  | succ fuel ih =>
    intro st table magic h
    simp only [find_magic_go, strictN_eq] at h
    split at h
    · exact ih _ _ _ h
    · split at h
      · next t0 heq =>
        injection h with h
        cases h
        exact heq
      · exact ih _ _ _ h

theorem bbFrom_lt (sq : Fin 64) : bbFrom sq < 2 ^ 64 := by
  unfold bbFrom
  rw [Nat.shiftLeft_eq, one_mul]
  exact Nat.pow_lt_pow_right (by norm_num) sq.isLt

theorem bbFrom_testBit (sq : Fin 64) (k : Nat) :
    (bbFrom sq).testBit k = decide (sq.val = k) := by
  unfold bbFrom
  rw [Nat.shiftLeft_eq, one_mul, Nat.testBit_two_pow]

theorem lor_eq_zero {a b : Nat} (h : a ||| b = 0) : a = 0 ∧ b = 0 := by
  constructor <;> apply Nat.eq_of_testBit_eq <;> intro k <;>
    rw [Nat.zero_testBit] <;>
    have hk := congrArg (fun x => Nat.testBit x k) h <;>
    simp only [Nat.testBit_lor, Nat.zero_testBit, Bool.or_eq_false_iff] at hk
  · exact hk.1
  · exact hk.2

theorem nat_or_left_comm (a b c : Nat) : a ||| (b ||| c) = b ||| (a ||| c) := by
  rw [← Nat.or_assoc, Nat.or_comm a b, Nat.or_assoc]

theorem walkRay_lt (l : List (Fin 64)) (b : Nat) : walkRay l b < 2 ^ 64 := by
  induction l with
  | nil => norm_num [walkRay]
  | cons sq rest ih =>
    unfold walkRay
    split
    · exact bbFrom_lt sq
    · exact Nat.or_lt_two_pow (bbFrom_lt sq) ih

theorem walkRay_cons_ne_zero (sq : Fin 64) (rest : List (Fin 64)) (b : Nat) :
    walkRay (sq :: rest) b ≠ 0 := by
  have hb : (bbFrom sq).testBit sq.val = true := by
    rw [bbFrom_testBit]
    simp
  unfold walkRay
  split
  · intro h
    rw [h, Nat.zero_testBit] at hb
    cases hb
  · intro h
    have := (lor_eq_zero h).1
    rw [this, Nat.zero_testBit] at hb
    cases hb

theorem walkRay_ne_zero (l : List (Fin 64)) (b : Nat) (h : l ≠ []) :
    walkRay l b ≠ 0 := by
  cases l with
  | nil => exact absurd rfl h
  | cons sq rest => exact walkRay_cons_ne_zero sq rest b

theorem walkRay_singleton (sq : Fin 64) (b : Nat) : walkRay [sq] b = bbFrom sq := by
  unfold walkRay
  split
  · rfl
  · unfold walkRay
    exact Nat.or_zero _

theorem walkRay_congr (l : List (Fin 64)) (b1 b2 : Nat)
    (h : ∀ sq ∈ l.dropLast, b1.testBit sq.val = b2.testBit sq.val) :
    walkRay l b1 = walkRay l b2 := by
  induction l with
  | nil => rfl
  | cons sq rest ih =>
    cases rest with
    | nil => rw [walkRay_singleton, walkRay_singleton]
    | cons sq2 rest2 =>
      have hd : (sq :: sq2 :: rest2).dropLast = sq :: (sq2 :: rest2).dropLast := rfl
      have h1 : b1.testBit sq.val = b2.testBit sq.val := by
        apply h
        rw [hd]
        exact List.mem_cons_self _ _
      have h2 : walkRay (sq2 :: rest2) b1 = walkRay (sq2 :: rest2) b2 := by
        apply ih
        intro sq' hs
        apply h
        rw [hd]
        exact List.mem_cons_of_mem _ hs
      show (if b1.testBit sq.val then bbFrom sq else bbFrom sq ||| walkRay (sq2 :: rest2) b1)
        = (if b2.testBit sq.val then bbFrom sq else bbFrom sq ||| walkRay (sq2 :: rest2) b2)
      rw [h1, h2]

theorem walkRay_pair_or (x y : Fin 64) (b : Nat) :
    walkRay [x, y] b ||| bbFrom y = bbFrom x ||| bbFrom y := by
  show (if b.testBit x.val then bbFrom x else bbFrom x ||| walkRay [y] b) ||| bbFrom y
    = bbFrom x ||| bbFrom y
  rw [walkRay_singleton]
  split
  · rfl
  · rw [Nat.or_assoc, Nat.or_self]

/-- Congruence of a ray walk up to the last square: blockers agreeing on all
but the last two squares give walks equal once the last square is joined in. -/
theorem walkRay_getLast_congr (r : List (Fin 64)) (b1 b2 : Nat) (w : Fin 64)
    (h : ∀ sq ∈ r.take (r.length - 2), b1.testBit sq.val = b2.testBit sq.val)
    (hw : r.getLast? = some w) :
    walkRay r b1 ||| bbFrom w = walkRay r b2 ||| bbFrom w := by
  induction r generalizing w with
  | nil => cases hw
  | cons x tail ih =>
    cases tail with
    | nil =>
      rw [walkRay_singleton, walkRay_singleton]
    | cons y rest =>
      cases rest with
      | nil =>
        have hwy : w = y := by
          rw [List.getLast?_cons_cons, List.getLast?_singleton] at hw
          exact (Option.some.inj hw).symm
        subst hwy
        rw [walkRay_pair_or, walkRay_pair_or]
      | cons z rest2 =>
        have htake : (x :: y :: z :: rest2).take ((x :: y :: z :: rest2).length - 2)
            = x :: (y :: z :: rest2).take ((y :: z :: rest2).length - 2) := by
          simp only [List.length_cons]
          rw [show rest2.length + 1 + 1 + 1 - 2 = (rest2.length + 1 + 1 - 2) + 1 from by omega,
            List.take_succ_cons]
        have hx : b1.testBit x.val = b2.testBit x.val := by
          apply h
          rw [htake]
          exact List.mem_cons_self _ _
        have hrec : walkRay (y :: z :: rest2) b1 ||| bbFrom w
            = walkRay (y :: z :: rest2) b2 ||| bbFrom w := by
          apply ih
          · intro sq hs
            apply h
            rw [htake]
            exact List.mem_cons_of_mem _ hs
          · rw [List.getLast?_cons_cons] at hw
            exact hw
        show (if b1.testBit x.val then bbFrom x else bbFrom x ||| walkRay (y :: z :: rest2) b1) ||| bbFrom w
          = (if b2.testBit x.val then bbFrom x else bbFrom x ||| walkRay (y :: z :: rest2) b2) ||| bbFrom w
        rw [hx]
        split
        · rfl
        · rw [Nat.or_assoc, Nat.or_assoc, hrec]

/-- The head square of a ray is always contained in its walk. -/
theorem bbFrom_or_walkRay (r : List (Fin 64)) (w : Fin 64) (b : Nat)
    (h : r.head? = some w) : bbFrom w ||| walkRay r b = walkRay r b := by
  cases r with
  | nil => cases h
  | cons x rest =>
    have hwx : w = x := by
      rw [List.head?_cons] at h
      exact (Option.some.inj h).symm
    subst hwx
    show bbFrom w ||| (if b.testBit w.val then bbFrom w else bbFrom w ||| walkRay rest b)
      = (if b.testBit w.val then bbFrom w else bbFrom w ||| walkRay rest b)
    split
    · exact Nat.or_self _
    · rw [← Nat.or_assoc, Nat.or_self]

/-- Congruence of one walk term inside a union: either the blockers agree on
the whole ray but its last square, or they agree up to the last two squares
and the union absorbs the last square. -/
theorem walkRay_or_congr (r : List (Fin 64)) (A b1 b2 : Nat)
    (hcase : (∀ sq ∈ r.dropLast, b1.testBit sq.val = b2.testBit sq.val) ∨
      ((∀ sq ∈ r.take (r.length - 2), b1.testBit sq.val = b2.testBit sq.val) ∧
       (∀ w : Fin 64, r.getLast? = some w → bbFrom w ||| A = A))) :
    walkRay r b1 ||| A = walkRay r b2 ||| A := by
  rcases hcase with hclean | ⟨h2, habs⟩
  · rw [walkRay_congr _ _ _ hclean]
  · cases hr : r.getLast? with
    | none =>
      cases r with
      | nil => rfl
      | cons x rest =>
        rw [List.getLast?_eq_none_iff] at hr
        cases hr
    | some w =>
      have habs' := habs w hr
      calc walkRay r b1 ||| A = walkRay r b1 ||| (bbFrom w ||| A) := by rw [habs']
        _ = (walkRay r b1 ||| bbFrom w) ||| A := (Nat.or_assoc _ _ _).symm
        _ = (walkRay r b2 ||| bbFrom w) ||| A := by
            rw [walkRay_getLast_congr r b1 b2 w h2 hr]
        _ = walkRay r b2 ||| (bbFrom w ||| A) := Nat.or_assoc _ _ _
        _ = walkRay r b2 ||| A := by rw [habs']

theorem rook_vray_covers : ∀ s : Fin 64, ∀ d ∈ [(8:Int), -8],
    ∀ sq ∈ (rookRay s d).dropLast, (rook_attacks_mask s).testBit sq.val = true := by
  decide

theorem rook_hray_cases : ∀ s : Fin 64, ∀ d ∈ [(1:Int), -1],
    (∀ sq ∈ (rookRay s d).dropLast, (rook_attacks_mask s).testBit sq.val = true) ∨
    ((∀ sq ∈ (rookRay s d).take ((rookRay s d).length - 2),
        (rook_attacks_mask s).testBit sq.val = true) ∧
     ((rookRay s 8).head? = (rookRay s d).getLast? ∨
      (rookRay s (-8)).head? = (rookRay s d).getLast?)) := by
  decide

theorem bishop_ray_mask_covers : ∀ s : Fin 64, ∀ d ∈ [(9:Int), 7, -9, -7],
    ∀ sq ∈ (bishopRay s d).dropLast, (bishop_attacks_mask s).testBit sq.val = true := by
  decide

theorem rook_ray_nonempty : ∀ s : Fin 64, rookRay s 1 ≠ [] ∨ rookRay s (-1) ≠ [] := by
  decide

theorem bishop_ray_nonempty : ∀ s : Fin 64,
    bishopRay s 9 ≠ [] ∨ bishopRay s 7 ≠ [] ∨ bishopRay s (-9) ≠ [] ∨ bishopRay s (-7) ≠ [] := by
  decide

theorem rook_attacks_lt (s : Fin 64) (occ : Nat) : rook_attacks s occ < 2 ^ 64 :=
  Nat.or_lt_two_pow (Nat.or_lt_two_pow (Nat.or_lt_two_pow (walkRay_lt _ _)
    (walkRay_lt _ _)) (walkRay_lt _ _)) (walkRay_lt _ _)

theorem bishop_attacks_lt (s : Fin 64) (occ : Nat) : bishop_attacks s occ < 2 ^ 64 :=
  Nat.or_lt_two_pow (Nat.or_lt_two_pow (Nat.or_lt_two_pow (walkRay_lt _ _)
    (walkRay_lt _ _)) (walkRay_lt _ _)) (walkRay_lt _ _)

theorem rook_attacks_ne_zero (s : Fin 64) (occ : Nat) : rook_attacks s occ ≠ 0 := by
  unfold rook_attacks
  intro h
  obtain ⟨h12, h3, h4⟩ :
      walkRay (rookRay s 1) occ ||| walkRay (rookRay s (-1)) occ = 0 ∧
      walkRay (rookRay s 8) occ = 0 ∧ walkRay (rookRay s (-8)) occ = 0 := by
    obtain ⟨h123, h4⟩ := lor_eq_zero h
    obtain ⟨h12, h3⟩ := lor_eq_zero h123
    exact ⟨h12, h3, h4⟩
  obtain ⟨h1, h2⟩ := lor_eq_zero h12
  rcases rook_ray_nonempty s with hne | hne
  · exact walkRay_ne_zero _ occ hne h1
  · exact walkRay_ne_zero _ occ hne h2

theorem bishop_attacks_ne_zero (s : Fin 64) (occ : Nat) : bishop_attacks s occ ≠ 0 := by
  unfold bishop_attacks
  intro h
  obtain ⟨h123, h4⟩ := lor_eq_zero h
  obtain ⟨h12, h3⟩ := lor_eq_zero h123
  obtain ⟨h1, h2⟩ := lor_eq_zero h12
  rcases bishop_ray_nonempty s with hne | hne | hne | hne
  · exact walkRay_ne_zero _ occ hne h1
  · exact walkRay_ne_zero _ occ hne h2
  · exact walkRay_ne_zero _ occ hne h3
  · exact walkRay_ne_zero _ occ hne h4

/-- Masking an occupancy to the rook relevance mask leaves the rook attack
set unchanged; the edge squares the mask omits never affect the walks except
through a wrapped horizontal continuation, whose extra square is the head of
a vertical ray and so is attacked either way. -/
theorem rook_attacks_and_mask (s : Fin 64) (occ : Nat) :
    rook_attacks s (occ &&& rook_attacks_mask s) = rook_attacks s occ := by
  have hagree : ∀ k : Nat, (rook_attacks_mask s).testBit k = true →
      (occ &&& rook_attacks_mask s).testBit k = occ.testBit k := by
    intro k hk
    rw [Nat.testBit_land, hk, Bool.and_true]
  have h3 : walkRay (rookRay s 8) (occ &&& rook_attacks_mask s)
      = walkRay (rookRay s 8) occ :=
    walkRay_congr _ _ _ (fun sq hs => hagree _ (rook_vray_covers s 8 (by simp) sq hs))
  have h4 : walkRay (rookRay s (-8)) (occ &&& rook_attacks_mask s)
      = walkRay (rookRay s (-8)) occ :=
    walkRay_congr _ _ _ (fun sq hs => hagree _ (rook_vray_covers s (-8) (by simp) sq hs))
  have hfix : ∀ d ∈ [(1:Int), -1],
      walkRay (rookRay s d) (occ &&& rook_attacks_mask s) |||
        (walkRay (rookRay s 8) occ ||| walkRay (rookRay s (-8)) occ)
      = walkRay (rookRay s d) occ |||
        (walkRay (rookRay s 8) occ ||| walkRay (rookRay s (-8)) occ) := by
    intro d hd
    apply walkRay_or_congr
    rcases rook_hray_cases s d hd with hclean | ⟨h2, hpart⟩
    · exact Or.inl (fun sq hs => hagree _ (hclean sq hs))
    · refine Or.inr ⟨fun sq hs => hagree _ (h2 sq hs), fun w hw => ?_⟩
      rcases hpart with hp | hp
      · rw [← Nat.or_assoc, bbFrom_or_walkRay _ w _ (by rw [hp, hw])]
      · rw [nat_or_left_comm, bbFrom_or_walkRay _ w _ (by rw [hp, hw])]
  unfold rook_attacks
  rw [Nat.or_assoc, Nat.or_assoc, h3, h4,
    nat_or_left_comm (walkRay (rookRay s 1) (occ &&& rook_attacks_mask s))
      (walkRay (rookRay s (-1)) (occ &&& rook_attacks_mask s))
      (walkRay (rookRay s 8) occ ||| walkRay (rookRay s (-8)) occ),
    hfix 1 (by simp),
    nat_or_left_comm (walkRay (rookRay s (-1)) (occ &&& rook_attacks_mask s))
      (walkRay (rookRay s 1) occ)
      (walkRay (rookRay s 8) occ ||| walkRay (rookRay s (-8)) occ),
    hfix (-1) (by simp),
    ← Nat.or_assoc, ← Nat.or_assoc]

/-- Masking an occupancy to the bishop relevance mask leaves the bishop
attack set unchanged. -/
theorem bishop_attacks_and_mask (s : Fin 64) (occ : Nat) :
    bishop_attacks s (occ &&& bishop_attacks_mask s) = bishop_attacks s occ := by
  have hagree : ∀ k : Nat, (bishop_attacks_mask s).testBit k = true →
      (occ &&& bishop_attacks_mask s).testBit k = occ.testBit k := by
    intro k hk
    rw [Nat.testBit_land, hk, Bool.and_true]
  unfold bishop_attacks
  rw [walkRay_congr _ _ _ (fun sq hs => hagree _ (bishop_ray_mask_covers s 9 (by simp) sq hs)),
    walkRay_congr _ _ _ (fun sq hs => hagree _ (bishop_ray_mask_covers s 7 (by simp) sq hs)),
    walkRay_congr _ _ _ (fun sq hs => hagree _ (bishop_ray_mask_covers s (-9) (by simp) sq hs)),
    walkRay_congr _ _ _ (fun sq hs => hagree _ (bishop_ray_mask_covers s (-7) (by simp) sq hs))]

/-- Recursive reading of gen_occupancy: successive index bits select the
successive listed squares. -/
def genOccAux (idx : Nat) : List (Fin 64) → Nat
  | [] => 0
  | sq :: rest => (if idx % 2 = 1 then bbFrom sq else 0) ||| genOccAux (idx / 2) rest

/-- Index whose bits record the membership of each listed square in a
target subset. -/
def packOcc (s : Nat) : List (Fin 64) → Nat
  | [] => 0
  | sq :: rest => (if s.testBit sq.val then 1 else 0) + 2 * packOcc s rest

theorem genOcc_foldl (idx : Nat) (l : List (Fin 64)) :
    ∀ (n acc : Nat),
    (List.enumFrom n l).foldl
      (fun occ p => if idx &&& (1 <<< p.1) ≠ 0 then bbSet occ p.2 else occ) acc
      = acc ||| genOccAux (idx >>> n) l := by
  induction l with
  | nil =>
    intro n acc
    simp [genOccAux]
  | cons sq rest ih =>
    intro n acc
    simp only [List.enumFrom, List.foldl]
    rw [ih (n + 1)]
    simp only [genOccAux]
    rw [Nat.shiftRight_succ]
    have hc : (idx &&& (1 <<< n) ≠ 0) ↔ ((idx >>> n) % 2 = 1) := by
      rw [Nat.shiftLeft_eq, one_mul, Nat.and_two_pow, Nat.shiftRight_eq_div_pow]
      have ht := @Nat.testBit_to_div_mod n idx
      cases h : idx.testBit n <;> rw [h] at ht <;> simp at ht ⊢ <;> omega
    by_cases hb : (idx >>> n) % 2 = 1
    · rw [if_pos (hc.mpr hb), if_pos hb]
      unfold bbSet
      rw [Nat.or_assoc]
    · rw [if_neg (fun hx => hb (hc.mp hx)), if_neg hb, Nat.zero_or]

theorem gen_occupancy_eq (idx mask : Nat) :
    gen_occupancy idx mask = genOccAux idx (bbList mask) := by
  unfold gen_occupancy
  show (List.enumFrom 0 (bbList mask)).foldl _ 0 = _
  rw [genOcc_foldl idx (bbList mask) 0 0, Nat.shiftRight_zero, Nat.zero_or]

theorem packOcc_lt (s : Nat) (l : List (Fin 64)) : packOcc s l < 2 ^ l.length := by
  induction l with
  | nil => norm_num [packOcc]
  | cons sq rest ih =>
    simp only [packOcc, List.length_cons]
    rw [pow_succ]
    split <;> omega

theorem packOcc_congr (s1 s2 : Nat) (l : List (Fin 64))
    (h : ∀ sq ∈ l, s1.testBit sq.val = s2.testBit sq.val) :
    packOcc s1 l = packOcc s2 l := by
  induction l with
  | nil => rfl
  | cons sq rest ih =>
    simp only [packOcc]
    rw [h sq (List.mem_cons_self _ _), ih (fun sq' hs => h sq' (List.mem_cons_of_mem _ hs))]

theorem genOccAux_packOcc (l : List (Fin 64)) : ∀ (s : Nat), l.Nodup →
    (∀ k, s.testBit k = true → ∃ sq ∈ l, sq.val = k) →
    genOccAux (packOcc s l) l = s := by
  induction l with
  | nil =>
    intro s _ hsub
    have hz : s = 0 := by
      apply Nat.eq_of_testBit_eq
      intro k
      rw [Nat.zero_testBit]
      by_contra hne
      obtain ⟨sq, hmem, _⟩ := hsub k (by
        cases h : s.testBit k
        · exact absurd h hne
        · rfl)
      exact List.not_mem_nil _ hmem
    rw [hz]
    rfl
  | cons sq rest ih =>
    intro s hnd hsub
    have hnotin : sq ∉ rest := (List.nodup_cons.mp hnd).1
    have hrest : rest.Nodup := (List.nodup_cons.mp hnd).2
    simp only [packOcc, genOccAux]
    have hmod : ((if s.testBit sq.val then 1 else 0) + 2 * packOcc s rest) % 2
        = (if s.testBit sq.val then 1 else 0) := by
      split <;> omega
    have hdiv : ((if s.testBit sq.val then 1 else 0) + 2 * packOcc s rest) / 2
        = packOcc s rest := by
      split <;> omega
    simp only [hmod, hdiv]
    have hs64 : ∀ k, 64 ≤ k → s.testBit k = false := by
      intro k hk
      cases h : s.testBit k
      · rfl
      · obtain ⟨sq', _, hv⟩ := hsub k h
        omega
    have hbit' : ∀ k, (s &&& bbNot (bbFrom sq)).testBit k
        = (s.testBit k && !decide (sq.val = k)) := by
      intro k
      unfold bbNot U64_MASK
      rw [Nat.testBit_land, Nat.testBit_xor, bbFrom_testBit,
        Nat.testBit_two_pow_sub_one]
      by_cases hk : k < 64
      · simp [hk]
      · rw [hs64 k (by omega)]
        simp
    have hpack : packOcc s rest = packOcc (s &&& bbNot (bbFrom sq)) rest := by
      apply packOcc_congr
      intro sq' hs'
      rw [hbit' sq'.val]
      have : ¬(sq.val = sq'.val) := by
        intro he
        have hee : sq = sq' := Fin.ext he
        exact hnotin (hee ▸ hs')
      simp [this]
    have hih : genOccAux (packOcc (s &&& bbNot (bbFrom sq)) rest) rest
        = s &&& bbNot (bbFrom sq) := by
      apply ih _ hrest
      intro k hk
      rw [hbit' k] at hk
      have hk1 : s.testBit k = true := by
        cases h : s.testBit k
        · rw [h] at hk
          cases hk
        · rfl
      have hk2 : sq.val ≠ k := by
        intro he
        rw [hk1, he] at hk
        simp at hk
      obtain ⟨sq', hmem', hv'⟩ := hsub k hk1
      cases List.mem_cons.mp hmem' with
      | inl he => exact absurd (he ▸ hv') hk2
      | inr hm => exact ⟨sq', hm, hv'⟩
    rw [hpack, hih]
    apply Nat.eq_of_testBit_eq
    intro k
    rw [Nat.testBit_lor, hbit' k]
    by_cases hk : sq.val = k
    · subst hk
      cases h : s.testBit sq.val <;> simp [h, bbFrom_testBit]
    · cases h : s.testBit k <;> split <;> simp_all [bbFrom_testBit, hk]

theorem count_bits_length (mask : Nat) : count_bits mask = (bbList mask).length := rfl

theorem gen_occupancy_surj (mask occ : Nat) (hm : mask < 2 ^ 64) :
    packOcc (occ &&& mask) (bbList mask) < 2 ^ count_bits mask ∧
    gen_occupancy (packOcc (occ &&& mask) (bbList mask)) mask = occ &&& mask := by
  constructor
  · rw [count_bits_length]
    exact packOcc_lt _ _
  · rw [gen_occupancy_eq]
    apply genOccAux_packOcc
    · exact (List.nodup_finRange 64).filter _
    · intro k hk
      rw [Nat.testBit_land] at hk
      have hmk : mask.testBit k = true := (Bool.and_eq_true_iff.mp hk).2
      have hk64 : k < 64 := by
        by_contra hge
        have hlt : mask < 2 ^ k :=
          lt_of_lt_of_le hm (Nat.pow_le_pow_right (by norm_num) (by omega))
        rw [Nat.testBit_lt_two_pow hlt] at hmk
        cases hmk
      refine ⟨⟨k, hk64⟩, ?_, rfl⟩
      rw [bbList, List.mem_filter]
      exact ⟨List.mem_finRange _, hmk⟩

theorem bbOfList_lt (l : List (Fin 64)) : bbOfList l < 2 ^ 64 := by
  unfold bbOfList
  suffices h : ∀ acc : Nat, acc < 2 ^ 64 → l.foldl bbSet acc < 2 ^ 64 from
    h 0 (by norm_num)
  induction l with
  | nil =>
    intro acc ha
    exact ha
  | cons sq rest ih =>
    intro acc ha
    exact ih _ (Nat.or_lt_two_pow ha (bbFrom_lt sq))

theorem rook_attacks_mask_lt (s : Fin 64) : rook_attacks_mask s < 2 ^ 64 :=
  Nat.or_lt_two_pow (Nat.or_lt_two_pow (Nat.or_lt_two_pow (bbOfList_lt _)
    (bbOfList_lt _)) (bbOfList_lt _)) (bbOfList_lt _)

theorem bishop_attacks_mask_lt (s : Fin 64) : bishop_attacks_mask s < 2 ^ 64 :=
  Nat.or_lt_two_pow (Nat.or_lt_two_pow (Nat.or_lt_two_pow (bbOfList_lt _)
    (bbOfList_lt _)) (bbOfList_lt _)) (bbOfList_lt _)

/-- A successful magic search yields a perfect lookup table: indexing the
table with the magic index of the masked occupancy returns the reference
attack set of the full occupancy. -/
theorem magic_lookup_generic (mask : Nat) (att : Nat → Nat)
    (bits fuel st table magic : Nat)
    (hm : mask < 2 ^ 64)
    (hlt : ∀ o, att o < 2 ^ 64)
    (hnz : ∀ o, att o ≠ 0)
    (hmi : ∀ o, att (o &&& mask) = att o)
    (h : find_magic_go mask (fun i => gen_occupancy i mask)
      (fun i => att (gen_occupancy i mask)) bits (2 ^ count_bits mask) fuel st
      = some (table, magic)) :
    ∀ occ, wordGet table (magicIdx (occ &&& mask) magic bits) = att occ := by
  intro occ
  have hins := find_magic_go_sound _ _ _ _ _ _ _ _ _ h
  obtain ⟨hip, hie⟩ := gen_occupancy_surj mask occ hm
  have hb := (magicInsert_sound (fun i => gen_occupancy i mask)
      (fun i => att (gen_occupancy i mask)) magic bits (fun j => hlt _)
      (2 ^ count_bits mask) 0 0 table hins).2
    (packOcc (occ &&& mask) (bbList mask)) (Nat.zero_le _) (by omega) (hnz _)
  rw [hie] at hb
  rw [hb]
  exact hmi occ

/-- C4: indexing the rook attack table returned by a successful
find_magic_number_rook(s, seed) at the magic index of the masked occupancy
yields exactly the ray-walked rook_attacks(s, occ), for every occupancy;
likewise for the bishop table from find_magic_number_bishop. -/
theorem c4_magic_lookup_correct (sq : Fin 64) (seed fuel : Nat) :
    ((find_magic_number_rook sq seed fuel).isSome = true →
      ∀ occ : Nat,
        wordGet ((find_magic_number_rook sq seed fuel).getD (0, 0)).1
          (magicIdx (occ &&& rook_attacks_mask sq)
            ((find_magic_number_rook sq seed fuel).getD (0, 0)).2 (rookBits sq))
          = rook_attacks sq occ) ∧
    ((find_magic_number_bishop sq seed fuel).isSome = true →
      ∀ occ : Nat,
        wordGet ((find_magic_number_bishop sq seed fuel).getD (0, 0)).1
          (magicIdx (occ &&& bishop_attacks_mask sq)
            ((find_magic_number_bishop sq seed fuel).getD (0, 0)).2 (bishopBits sq))
          = bishop_attacks sq occ) := by
  constructor
  · intro h
    obtain ⟨tm, htm⟩ := Option.isSome_iff_exists.mp h
    rw [htm]
    simp only [Option.getD_some]
    have htm2 : find_magic_number_rook sq seed fuel = some (tm.1, tm.2) := by
      rw [htm]
    exact magic_lookup_generic (rook_attacks_mask sq) (rook_attacks sq)
      (rookBits sq) fuel seed tm.1 tm.2 (rook_attacks_mask_lt sq)
      (rook_attacks_lt sq) (rook_attacks_ne_zero sq)
      (rook_attacks_and_mask sq) htm2
  · intro h
    obtain ⟨tm, htm⟩ := Option.isSome_iff_exists.mp h
    rw [htm]
    simp only [Option.getD_some]
    have htm2 : find_magic_number_bishop sq seed fuel = some (tm.1, tm.2) := by
      rw [htm]
    exact magic_lookup_generic (bishop_attacks_mask sq) (bishop_attacks sq)
      (bishopBits sq) fuel seed tm.1 tm.2 (bishop_attacks_mask_lt sq)
      (bishop_attacks_lt sq) (bishop_attacks_ne_zero sq)
      (bishop_attacks_and_mask sq) htm2

/-- Square d8, whose rook magic search under the source seed succeeds
within 470 candidates. -/
def c4sqR : Fin 64 := ⟨3, by omega⟩

/-- Square e8, whose bishop magic search under the source seed succeeds
within 83 candidates. -/
def c4sqB : Fin 64 := ⟨4, by omega⟩

theorem c4_magic_lookup_correct_witness :
    wordGet ((find_magic_number_rook c4sqR MAGIC_SEED 470).getD (0, 0)).1
      (magicIdx ((123456789 : Nat) &&& rook_attacks_mask c4sqR)
        ((find_magic_number_rook c4sqR MAGIC_SEED 470).getD (0, 0)).2 (rookBits c4sqR))
      = rook_attacks c4sqR 123456789 ∧
    wordGet ((find_magic_number_bishop c4sqB MAGIC_SEED 83).getD (0, 0)).1
      (magicIdx ((987654321 : Nat) &&& bishop_attacks_mask c4sqB)
        ((find_magic_number_bishop c4sqB MAGIC_SEED 83).getD (0, 0)).2 (bishopBits c4sqB))
      = bishop_attacks c4sqB 987654321 :=
  ⟨(c4_magic_lookup_correct c4sqR MAGIC_SEED 470).1 (by rfl) 123456789,
   (c4_magic_lookup_correct c4sqB MAGIC_SEED 83).2 (by rfl) 987654321⟩
